import Mathlib

/-!
MapReduce task engine: a shallow embedding of `worker.go` and `main.go`.

The development models the two task loops of `worker.go` (`MapTask.Process` with
its `write` goroutine, and `ReduceTask.Process`) and the word-count client of
`main.go` (`Client.Map`, `Client.Reduce`).

Modelling conventions.

* A Go `string` is a Lean `String`; its bytes are the UTF-8 encoding.
* Go `int` is the 64-bit two's-complement integer, `uint32` is a natural number
  reduced modulo `2^32`.
* An unbuffered channel is the sequence of values its sender offers.  A send with
  no receiver, or a receive with no sender and no close, blocks for ever; a task
  whose own goroutine blocks for ever has the outcome `Outcome.blocked`.
* The external store is a list of rows, oldest first, together with an oracle
  that says which `Exec` calls fail.
* `rows.Scan` on a `(key, value)` row of strings succeeds; for the map input the
  failure of `Scan` is modelled, because `MapTask.Process` returns it.
* The set-up of `MapTask.Process` (download, creation and preparation of the
  `R` output stores, query of the input store) is modelled by the errors its
  calls return on the host.
-/

namespace MapReduce

/-! ## Data model -/

/-- Go `error` values that occur in the engine: the two `*strconv.NumError`
kinds returned by `strconv.Atoi`, and errors of the `database/sql` layer. -/
inductive Error where
  | invalidNumber (num : String)
  | outOfRange (num : String)
  | store (msg : String)
  deriving DecidableEq, Repr

/-- The `Pair` struct of `worker.go`. -/
structure Pair where
  Key : String
  Value : String
  deriving DecidableEq, Repr

/-- How a call of `Process` ends: it returns an error value (`none` is `nil`),
its goroutine blocks for ever on a channel operation, or the program panics. -/
inductive Outcome where
  | returned (err : Option Error)
  | blocked
  | panicked (msg : String)
  deriving DecidableEq, Repr

/-- UTF-8 encoding of one rune, as a list of byte values. -/
def utf8Bytes (c : Char) : List Nat :=
  let n := c.toNat
  if n < 0x80 then [n]
  else if n < 0x800 then [0xC0 + n / 64, 0x80 + n % 64]
  else if n < 0x10000 then [0xE0 + n / 4096, 0x80 + (n / 64) % 64, 0x80 + n % 64]
  else [0xF0 + n / 262144, 0x80 + (n / 4096) % 64, 0x80 + (n / 64) % 64, 0x80 + n % 64]

/-- The conversion `[]byte(s)`. -/
def bytes (s : String) : List Nat :=
  s.toList.flatMap utf8Bytes

/-! ## Partitioner: `hash/fnv` and the bucket index of `MapTask.write` -/

/-- The constant `offset32` of Go's `hash/fnv`. -/
def offset32 : Nat := 2166136261

/-- The constant `prime32` of Go's `hash/fnv`. -/
def prime32 : Nat := 16777619

/-- The call `fnv.New32()`: a `sum32` holding the offset basis. -/
def fnv.New32 : Nat := offset32

/-- The method `(*sum32).Write`: for each byte, `hash *= prime32` in `uint32`
arithmetic, then `hash ^= sum32(c)`. -/
def fnv.Write (hash : Nat) (data : List Nat) : Nat :=
  data.foldl (fun h c => ((h * prime32) % 2 ^ 32) ^^^ c) hash

/-- The method `Sum32`. -/
def fnv.Sum32 (hash : Nat) : Nat := hash

/-- One round of the FNV-1 recurrence as published: multiply the hash by the FNV
prime modulo `2^32`, then exclusive-or the byte in. -/
def fnv1Step (h b : Nat) : Nat :=
  ((h * 16777619) % 4294967296) ^^^ b

/-- The FNV-1 recurrence continued from an intermediate hash value. -/
def fnv1From (h : Nat) : List Nat → Nat
  | [] => h
  | b :: bs => fnv1From (fnv1Step h b) bs

/-- Reference definition of the 32-bit FNV-1 hash: the recurrence started from
the offset basis `2166136261`. -/
def fnv1_32 (data : List Nat) : Nat :=
  fnv1From 2166136261 data

/-- Lines 91-93 of `worker.go`: `hash := fnv.New32(); hash.Write([]byte(key));
r := int(hash.Sum32() % uint32(task.R))`.  The conversion `uint32(task.R)` keeps
the low 32 bits of `R`; a zero divisor is the run-time panic of integer
division. -/
def partition (R : Nat) (key : String) : Except String Nat :=
  let hash := fnv.Write fnv.New32 (bytes key)
  let m := R % 2 ^ 32
  if m = 0 then .error "integer divide by zero"
  else .ok (fnv.Sum32 hash % m)

/-- The bucket that `MapTask.write` computes for a key when `uint32(R)` is not
zero. -/
def bucketOf (R : Nat) (key : String) : Nat :=
  fnv1_32 (bytes key) % (R % 2 ^ 32)

/-! ## Map task -/

/-- What one call of a user `Map` function does with its output channel: the
pairs it sends, in order, whether it closes the channel before returning, and
the error it returns. -/
structure MapRun where
  out : List Pair
  closes : Bool
  err : Option Error
  deriving DecidableEq, Repr

/-- The `Map` half of `Interface`. -/
abbrev Mapper := String → String → MapRun

/-- The oracle of `tasks[r].Exec(pair.Key, pair.Value)`: for the ordinal of the
call (the counter `pt` after its increment), the bucket and the pair, the error
it returns, `none` for success. -/
abbrev MapExec := Nat → Nat → Pair → Option Error

/-- State shared by `MapTask.Process` and its `write` goroutines: the rows held
by the `R` output stores, the counter `pt`, and the pairs received so far from
the `Map` output channels (a ghost field). -/
structure MapState where
  stores : Nat → List Pair
  pt : Nat
  received : List Pair

/-- Initial state: empty output stores, `pt = 0`. -/
def MapState.init : MapState :=
  { stores := fun _ => [], pt := 0, received := [] }

/-- What `MapTask.Process` observes of one record: `client.Map` returned and
`<-joined` delivered a value, or one of the two never happens, or the `write`
goroutine panicked. -/
inductive Joined where
  | value (err : Option Error)
  | never
  | panic (msg : String)
  deriving DecidableEq, Repr

/-- The goroutine `MapTask.write` (lines 88-101) running against the pairs
`client.Map` offers on `output`.  A successful `Exec` appends the pair to store
`r`.  After a failed `Exec` the goroutine sends the error on `joined` and
returns: `client.Map` can then finish only if it has nothing left to send.  When
the pairs are exhausted, `joined <- nil` is reached only if the channel is
closed. -/
def MapTask.write (R : Nat) (exec : MapExec) :
    List Pair → Bool → MapState → MapState × Joined
  | [], closes, st => (st, if closes then .value none else .never)
  | pair :: rest, closes, st =>
    let st1 : MapState := { st with pt := st.pt + 1, received := st.received ++ [pair] }
    match partition R pair.Key with
    | .error msg => (st1, .panic msg)
    | .ok r =>
      if r < R then
        match exec st1.pt r pair with
        | some err => (st1, if rest = [] then .value (some err) else .never)
        | none =>
          MapTask.write R exec rest closes
            { st1 with stores := fun i => if i = r then st1.stores i ++ [pair] else st1.stores i }
      else (st1, .panic "index out of range")

/-- Result of `MapTask.Process`: the final state and the outcome. -/
structure MapResult where
  state : MapState
  outcome : Outcome

/-- The record loop of `MapTask.Process` (lines 72-85).  A row is the result of
`rows.Scan`.  The value received from `joined` is discarded, and so is the
return value of `client.Map`. -/
def MapTask.loop (R : Nat) (client : Mapper) (exec : MapExec) :
    List (Except Error (String × String)) → MapState → MapResult
  | [], st => { state := st, outcome := .returned none }
  | .error err :: _, st => { state := st, outcome := .returned (some err) }
  | .ok (key, value) :: rows, st =>
    let run := client key value
    match MapTask.write R exec run.out run.closes st with
    | (st1, .value _) => MapTask.loop R client exec rows st1
    | (st1, .never) => { state := st1, outcome := .blocked }
    | (st1, .panic msg) => { state := st1, outcome := .panicked msg }

/-- The part of `MapTask.Process` that follows a successful set-up (lines
71-85): the record loop on the empty output stores. -/
def MapTask.Process (R : Nat) (client : Mapper) (exec : MapExec)
    (rows : List (Except Error (String × String))) : MapResult :=
  MapTask.loop R client exec rows MapState.init

/-- The host of a map task as the set-up of `Process` (lines 42-70) sees it: the
errors returned by `download`, by `createDatabase` and `db.Prepare` for the
output store of each bucket, by `openDatabase` and by `db.Query`, `none` for
success.  The helpers `download`, `createDatabase` and `openDatabase` are not
part of the sources at hand, so their results are parameters. -/
structure MapHost where
  download : Option Error
  createDatabase : Nat → Option Error
  Prepare : Nat → Option Error
  openDatabase : Option Error
  Query : Option Error

/-- The loop of lines 49-59 from index `i` with `n` entries of `tasks` still to
fill: the store of bucket `i` is created, its insert statement prepared, and the
first error of either call is returned by `Process`. -/
def MapTask.openStores (host : MapHost) : Nat → Nat → Option Error
  | _, 0 => none
  | i, n + 1 =>
    match host.createDatabase i with
    | some err => some err
    | none =>
      match host.Prepare i with
      | some err => some err
      | none => MapTask.openStores host (i + 1) n

/-- Lines 42-70: the input partition is downloaded, the `R` output stores are
created and prepared, the input store is opened and queried; the first error
is returned by `Process`. -/
def MapTask.setup (host : MapHost) (R : Nat) : Option Error :=
  match host.download with
  | some err => some err
  | none =>
    match MapTask.openStores host 0 R with
    | some err => some err
    | none =>
      match host.openDatabase with
      | some err => some err
      | none => host.Query

/-- The model of `MapTask.Process` (lines 41-86): an error of the set-up is
returned before any record is read, otherwise the record loop runs on the empty
output stores. -/
def MapTask.ProcessOn (host : MapHost) (R : Nat) (client : Mapper) (exec : MapExec)
    (rows : List (Except Error (String × String))) : MapResult :=
  match MapTask.setup host R with
  | some err => { state := MapState.init, outcome := .returned (some err) }
  | none => MapTask.Process R client exec rows

/-- A host on which every call of the set-up succeeds, except that only `8`
output stores can be created. -/
def MapHost.small : MapHost :=
  { download := none,
    createDatabase := fun i => if i < 8 then none else some (.store "too many open files"),
    Prepare := fun _ => none,
    openDatabase := none,
    Query := none }

/-- Fewer than `n` output stores can be created and prepared on the host: the
call for some bucket below `n` fails. -/
def MapHost.failsBelow (host : MapHost) (n : Nat) : Prop :=
  ∃ i, i < n ∧ (host.createDatabase i ≠ none ∨ host.Prepare i ≠ none)

/-! ## Reduce task -/

/-- What a `Reduce` invocation does once it has left its receive loop: the pairs
it sends on `output`, in order, whether it closes `output`, and the error it
returns. -/
structure Finish where
  out : List Pair
  closes : Bool
  err : Option Error
  deriving DecidableEq, Repr

/-- The `Reduce` half of `Interface`, as a receive loop over `values` with a
local state `σ`: the state on entry, the reaction to a received value (go on
receiving, or leave the loop), and the reaction to the close of `values`.
Functions that send on `output` between two receives are outside this model. -/
structure Reducer (σ : Type) where
  start : String → σ
  onValue : String → σ → String → σ ⊕ Finish
  onClose : String → σ → Finish

/-- A `Reduce` goroutine: still in its receive loop, or past it. -/
inductive Proc (σ : Type) where
  | receiving (key : String) (s : σ)
  | finished (f : Finish)

/-- Observable steps of `ReduceTask.Process`; `chan` identifies the pair
`(input_chan, output_chan)` in use, counted from `0` and incremented by each
`make` at lines 137-138. -/
inductive Event where
  | invoke (key : String) (chan : Nat)
  | value (chan : Nat) (v : String)
  | closeInput (chan : Nat)
  | persist (chan : Nat) (p : Pair) (err : Option Error)
  | drained (chan : Nat)
  deriving DecidableEq, Repr

/-- The oracle of `outputDB.Exec`: for the ordinal of the call (from `1`) and the
pair, the error it returns, `none` for success. -/
abbrev ReduceExec := Nat → Pair → Option Error

/-- State of the loop of `ReduceTask.Process`: the variable `prev_key`, the
identity of the current channel pair, the `Reduce` goroutine started on that
pair (if any), the rows of the output store, the number of `Exec` calls made,
and the trace of events. -/
structure ReduceState (σ : Type) where
  prev_key : String
  chan : Nat
  proc : Option (Proc σ)
  outputDB : List Pair
  execs : Nat
  trace : List Event

/-- State at line 124: fresh channels, `prev_key = ""`, no goroutine. -/
def ReduceState.init (σ : Type) : ReduceState σ :=
  { prev_key := "", chan := 0, proc := none, outputDB := [], execs := 0, trace := [] }

/-- How a step of the loop ends: `go` means the loop goes on; `stop o` means
`Process` ends with outcome `o`; `overlap` means a second `Reduce` goroutine
was started on a channel pair that already has one, after which the behaviour
depends on the scheduler and is not modelled. -/
inductive Ctl where
  | go
  | stop (o : Outcome)
  | overlap
  deriving DecidableEq, Repr

/-- The statement `input_chan <- value` (lines 144 and 146): it completes only
if the goroutine on the current channel pair is in its receive loop. -/
def ReduceTask.send {σ : Type} (client : Reducer σ) (st : ReduceState σ) (value : String) :
    ReduceState σ × Ctl :=
  match st.proc with
  | some (.receiving key s) =>
    let next : Proc σ :=
      match client.onValue key s value with
      | .inl s1 => .receiving key s1
      | .inr f => .finished f
    ({ st with proc := some next, trace := st.trace ++ [.value st.chan value] }, .go)
  | _ => (st, .stop .blocked)

/-- What the goroutine on the current channel pair sends on `output_chan` once
`input_chan` is closed; `none` if there is no goroutine. -/
def ReduceTask.closing {σ : Type} (client : Reducer σ) (st : ReduceState σ) : Option Finish :=
  match st.proc with
  | none => none
  | some (.receiving key s) => some (client.onClose key s)
  | some (.finished f) => some f

/-- The loop `for i := range output_chan` of lines 131-136: every received pair
is inserted; a failed `Exec` makes `Process` return the error.  The loop ends
when `output_chan` is closed, and blocks for ever if it never is. -/
def ReduceTask.drain {σ : Type} (exec : ReduceExec) (closes : Bool) :
    List Pair → ReduceState σ → ReduceState σ × Ctl
  | [], st =>
    if closes then ({ st with trace := st.trace ++ [.drained st.chan] }, .go)
    else (st, .stop .blocked)
  | i :: rest, st =>
    match exec (st.execs + 1) i with
    | some err =>
      ({ st with execs := st.execs + 1, trace := st.trace ++ [.persist st.chan i (some err)] },
        .stop (.returned (some err)))
    | none =>
      ReduceTask.drain exec closes rest
        { st with execs := st.execs + 1, outputDB := st.outputDB ++ [i],
                  trace := st.trace ++ [.persist st.chan i none] }

/-- The loop `for i := range output_chan` of lines 150-152: the result of `Exec`
is dropped, so the loop goes on after a failed insert. -/
def ReduceTask.drainLast {σ : Type} (exec : ReduceExec) (closes : Bool) :
    List Pair → ReduceState σ → ReduceState σ × Ctl
  | [], st =>
    if closes then ({ st with trace := st.trace ++ [.drained st.chan] }, .go)
    else (st, .stop .blocked)
  | i :: rest, st =>
    match exec (st.execs + 1) i with
    | some err =>
      ReduceTask.drainLast exec closes rest
        { st with execs := st.execs + 1, trace := st.trace ++ [.persist st.chan i (some err)] }
    | none =>
      ReduceTask.drainLast exec closes rest
        { st with execs := st.execs + 1, outputDB := st.outputDB ++ [i],
                  trace := st.trace ++ [.persist st.chan i none] }

/-- Lines 130-138: close `input_chan`, drain `output_chan`, make fresh
channels.  With no goroutine on the channel pair nothing ever closes
`output_chan`. -/
def ReduceTask.closeGroup {σ : Type} (client : Reducer σ) (exec : ReduceExec)
    (st : ReduceState σ) : ReduceState σ × Ctl :=
  let st1 := { st with trace := st.trace ++ [.closeInput st.chan] }
  match ReduceTask.closing client st with
  | none => (st1, .stop .blocked)
  | some f =>
    match ReduceTask.drain exec f.closes f.out st1 with
    | (st2, .go) => ({ st2 with chan := st2.chan + 1, proc := none }, .go)
    | (st2, c) => (st2, c)

/-- Lines 140-143: `prev_key = key` and `go client.Reduce(key, input_chan,
output_chan)`. -/
def ReduceTask.openGroup {σ : Type} (client : Reducer σ) (st : ReduceState σ) (key : String) :
    ReduceState σ × Ctl :=
  let st1 := { st with prev_key := key, trace := st.trace ++ [.invoke key st.chan] }
  match st.proc with
  | some _ => (st1, .overlap)
  | none => ({ st1 with proc := some (.receiving key (client.start key)) }, .go)

/-- Result of `ReduceTask.Process`: the final state and how the loop ended. -/
structure ReduceResult (σ : Type) where
  state : ReduceState σ
  ctl : Ctl

/-- Lines 149-153: close `input_chan`, drain `output_chan` dropping the results
of `Exec`, return `nil`. -/
def ReduceTask.finish {σ : Type} (client : Reducer σ) (exec : ReduceExec)
    (st : ReduceState σ) : ReduceResult σ :=
  let st1 := { st with trace := st.trace ++ [.closeInput st.chan] }
  match ReduceTask.closing client st with
  | none => { state := st1, ctl := .stop .blocked }
  | some f =>
    match ReduceTask.drainLast exec f.closes f.out st1 with
    | (st2, .go) => { state := st2, ctl := .stop (.returned none) }
    | (st2, c) => { state := st2, ctl := c }

/-- The body of the loop at lines 125-148 for one scanned row. -/
def ReduceTask.step {σ : Type} (client : Reducer σ) (exec : ReduceExec)
    (st : ReduceState σ) (key value : String) : ReduceState σ × Ctl :=
  if st.prev_key != key then
    match (if st.prev_key != "" then ReduceTask.closeGroup client exec st else (st, .go)) with
    | (st1, .go) =>
      match ReduceTask.openGroup client st1 key with
      | (st2, .go) => ReduceTask.send client st2 value
      | (st2, c) => (st2, c)
    | (st1, c) => (st1, c)
  else ReduceTask.send client st value

/-- The loop of `ReduceTask.Process` (lines 125-153) over the scanned rows. -/
def ReduceTask.loop {σ : Type} (client : Reducer σ) (exec : ReduceExec) :
    List (String × String) → ReduceState σ → ReduceResult σ
  | [], st => ReduceTask.finish client exec st
  | (key, value) :: rows, st =>
    match ReduceTask.step client exec st key value with
    | (st1, .go) => ReduceTask.loop client exec rows st1
    | (st1, c) => { state := st1, ctl := c }

/-- The clause `ORDER BY key` of the query at line 118: rows ascending by the
bytes of the key, rows with equal keys in their stored order. -/
def orderByKey (rows : List (String × String)) : List (String × String) :=
  rows.insertionSort (fun a b => bytes a.1 ≤ bytes b.1)

/-- The model of `ReduceTask.Process` from the query of the merged store on. -/
def ReduceTask.Process {σ : Type} (client : Reducer σ) (exec : ReduceExec)
    (merged : List (String × String)) : ReduceResult σ :=
  ReduceTask.loop client exec (orderByKey merged) (ReduceState.init σ)

/-! ## The word-count client of `main.go` -/

/-- The functions of Go's `unicode` package that `Client.Map` and
`strings.Fields` call.  Their tables are not part of the repository, so they
are parameters of the model. -/
structure Unicode where
  IsSpace : Char → Bool
  IsLetter : Char → Bool
  IsDigit : Char → Bool
  ToLower : Char → Char

/-- The scan of `strings.Fields`: `cur` holds the runes of the field being read,
latest first. -/
def strings.fieldsFrom (U : Unicode) : List Char → List Char → List String
  | [], cur => if cur = [] then [] else [String.mk cur.reverse]
  | c :: cs, cur =>
    if U.IsSpace c then
      if cur = [] then strings.fieldsFrom U cs []
      else String.mk cur.reverse :: strings.fieldsFrom U cs []
    else strings.fieldsFrom U cs (c :: cur)

/-- Go's `strings.Fields`: the maximal runs of runes that are not white space. -/
def strings.Fields (U : Unicode) (s : String) : List String :=
  strings.fieldsFrom U s.toList []

/-- Go's `strings.Map`: every rune is replaced by its image, and dropped when the
mapping returns a negative value (`none`). -/
def strings.Map (mapping : Char → Option Char) (s : String) : String :=
  String.mk (s.toList.filterMap mapping)

/-- The mapping passed to `strings.Map` at lines 24-29 of `main.go`. -/
def Client.mapping (U : Unicode) (r : Char) : Option Char :=
  if U.IsLetter r || U.IsDigit r then some (U.ToLower r) else none

/-- The loop of `Client.Map` (lines 23-33): the pairs sent on `output`. -/
def Client.mapLoop (U : Unicode) : List String → List Pair
  | [] => []
  | elt :: lst =>
    let word := strings.Map (Client.mapping U) elt
    if (bytes word).length > 0 then
      { Key := word, Value := "1" } :: Client.mapLoop U lst
    else Client.mapLoop U lst

/-- The method `Client.Map` (lines 20-35): `output` is closed by the deferred
call, the result is `nil`. -/
def Client.Map (U : Unicode) (_key value : String) : MapRun :=
  let lst := strings.Fields U value
  { out := Client.mapLoop U lst, closes := true, err := none }

/-- Reads the decimal digits of `strconv.Atoi`: a byte that is not a digit is a
syntax error, a value that leaves the `uint64` range is a range error. -/
def strconv.digits (s : String) : List Char → Nat → Except Error Nat
  | [], n => .ok n
  | c :: cs, n =>
    if 48 ≤ c.toNat ∧ c.toNat ≤ 57 then
      let n1 := 10 * n + (c.toNat - 48)
      if n1 < 2 ^ 64 then strconv.digits s cs n1 else .error (.outOfRange s)
    else .error (.invalidNumber s)

/-- The magnitude and sign accepted by `strconv.Atoi`, checked against the range
of a 64-bit `int`. -/
def strconv.signed (s : String) (neg : Bool) (ds : List Char) : Except Error Int :=
  if ds = [] then .error (.invalidNumber s)
  else
    match strconv.digits s ds 0 with
    | .error e => .error e
    | .ok n =>
      if neg then (if n ≤ 2 ^ 63 then .ok (-(n : Int)) else .error (.outOfRange s))
      else (if n < 2 ^ 63 then .ok (n : Int) else .error (.outOfRange s))

/-- Go's `strconv.Atoi` for a 64-bit `int`: an optional sign followed by at least
one decimal digit, the value within `[-2^63, 2^63 - 1]`. -/
def strconv.Atoi (s : String) : Except Error Int :=
  match s.toList with
  | '+' :: ds => strconv.signed s false ds
  | '-' :: ds => strconv.signed s true ds
  | ds => strconv.signed s false ds

/-- Go's `strconv.Itoa`. -/
def strconv.Itoa (i : Int) : String :=
  match i with
  | .ofNat m => Nat.repr m
  | .negSucc m => "-" ++ Nat.repr (m + 1)

/-- Arithmetic of the Go type `int` (64 bits, two's complement): the
representative of `x` modulo `2^64` in `[-2^63, 2^63 - 1]`. -/
def wrapInt (x : Int) : Int :=
  (x + 2 ^ 63) % 2 ^ 64 - 2 ^ 63

/-- The method `Client.Reduce` (lines 37-50) as a receive loop whose state is
the variable `count`.  A value that `strconv.Atoi` rejects ends the loop with
that error: nothing is sent, `output` is closed by the deferred call.  At the
close of `values` the pair `(key, strconv.Itoa(count))` is sent. -/
def Client.Reduce : Reducer Int where
  start := fun _ => 0
  onValue := fun _ count v =>
    match strconv.Atoi v with
    | .error err => .inr { out := [], closes := true, err := some err }
    | .ok i => .inl (wrapInt (count + i))
  onClose := fun key count =>
    { out := [{ Key := key, Value := strconv.Itoa count }], closes := true, err := none }

/-- A `Reduce` invocation run on its own against a value stream that offers
`values` and is then closed, with a receiver on `output`. -/
def Reducer.run {σ : Type} (client : Reducer σ) (key : String) : σ → List String → Finish
  | s, [] => client.onClose key s
  | s, v :: values =>
    match client.onValue key s v with
    | .inl s1 => Reducer.run client key s1 values
    | .inr f => f

/-- The classification of the ASCII runes by Go's `unicode` package, used to
evaluate the client on ASCII text. -/
def Unicode.ascii : Unicode where
  IsSpace := fun c => c = ' ' || (9 ≤ c.toNat && c.toNat ≤ 13)
  IsLetter := fun c => c.isAlpha
  IsDigit := fun c => c.isDigit
  ToLower := fun c => c.toLower

/-! ## Reference notions used to state the claims about the client -/

/-- The white-space separated tokens of a string, stated independently of
`strings.Fields`: split at every white-space rune and keep the non-empty
pieces. -/
def tokensOf (U : Unicode) (value : String) : List String :=
  ((value.toList.splitOnP U.IsSpace).filter (fun t => !t.isEmpty)).map String.mk

/-- The image of a token: the runes that are letters or digits, lowercased. -/
def imageOf (U : Unicode) (token : String) : String :=
  String.mk ((token.toList.filter (fun c => U.IsLetter c || U.IsDigit c)).map U.ToLower)

/-- The tables `U` classify every ASCII rune as Go's `unicode` package does. -/
def Unicode.agreesOnASCII (U : Unicode) : Prop :=
  ∀ c : Char, c.toNat < 128 →
    U.IsSpace c = Unicode.ascii.IsSpace c ∧ U.IsLetter c = Unicode.ascii.IsLetter c ∧
    U.IsDigit c = Unicode.ascii.IsDigit c ∧ U.ToLower c = Unicode.ascii.ToLower c

/-- The integer a value stands for when `strconv.Atoi` accepts it, `0`
otherwise. -/
def atoiValue (v : String) : Int :=
  match strconv.Atoi v with
  | .ok i => i
  | .error _ => 0

/-- Whether `strconv.Atoi` accepts the value. -/
def parses (v : String) : Bool :=
  match strconv.Atoi v with
  | .ok _ => true
  | .error _ => false

/-! ## The group state machine of the specification -/

/-- The states `NoGroup`, `GroupOpen(key)` and `GroupClosing` of the
specification; an open or closing group carries the channel pair it owns. -/
inductive GroupState where
  | NoGroup
  | GroupOpen (key : String) (chan : Nat)
  | GroupClosing (key : String) (chan : Nat)
  deriving DecidableEq, Repr

/-- One transition of the group state machine; `none` when the event breaks the
protocol.  A `Reduce` invocation may start only in `NoGroup`; values go to the
open group; closing the value stream of the open group makes it closing; pairs
are persisted from, and the drain ends for, the closing group only.  Closing a
value stream while no group exists leaves `NoGroup`. -/
def GroupState.next : GroupState → Event → Option GroupState
  | .NoGroup, .invoke key chan => some (.GroupOpen key chan)
  | .NoGroup, .closeInput _ => some .NoGroup
  | .GroupOpen key chan, .value c _ => if c = chan then some (.GroupOpen key chan) else none
  | .GroupOpen key chan, .closeInput c => if c = chan then some (.GroupClosing key chan) else none
  | .GroupClosing key chan, .persist c _ _ =>
    if c = chan then some (.GroupClosing key chan) else none
  | .GroupClosing _ chan, .drained c => if c = chan then some .NoGroup else none
  | _, _ => none

/-- Runs the group state machine over a trace of events. -/
def GroupState.run : GroupState → List Event → Option GroupState
  | s, [] => some s
  | s, e :: es =>
    match s.next e with
    | none => none
    | some s1 => GroupState.run s1 es

/-- The trace of the state is a run of the group state machine from `NoGroup`. -/
def ReduceState.accepted {σ : Type} (st : ReduceState σ) : Prop :=
  ∃ g, GroupState.run .NoGroup st.trace = some g

/-- Loop invariant between two records once a group has been opened: `prev_key`
is not empty, a `Reduce` goroutine owns the current channel pair, and the trace
leads the group state machine to `GroupOpen` on that pair. -/
def ReduceState.hasOpenGroup {σ : Type} (st : ReduceState σ) : Prop :=
  st.prev_key ≠ "" ∧ (∃ p, st.proc = some p) ∧
  ∃ k, GroupState.run .NoGroup st.trace = some (.GroupOpen k st.chan)

/-! ## Reference notions used to state grouping -/

/-- Bookkeeping of the `Reduce` invocations seen in a trace, latest first: an
`invoke` event starts a new entry, a `value` event adds the value to the entry
of the latest invocation. -/
def Event.record (acc : List (String × List String)) : Event → List (String × List String)
  | .invoke key _ => (key, []) :: acc
  | .value _ v =>
    match acc with
    | (key, vs) :: older => (key, vs ++ [v]) :: older
    | [] => []
  | _ => acc

/-- The `Reduce` invocations of a trace in the order they were started, each
with the values it received, in order. -/
def invocationsOf (trace : List Event) : List (String × List String) :=
  (trace.foldl Event.record []).reverse

/-- The groups of a list of rows: the maximal runs of consecutive rows with the
same key, each as the key with the values of the run, in order. -/
def groupRuns : List (String × String) → List (String × List String)
  | [] => []
  | (key, value) :: rows =>
    match groupRuns rows with
    | (k, vs) :: gs => if key = k then (key, value :: vs) :: gs else (key, [value]) :: (k, vs) :: gs
    | [] => [(key, [value])]

/-- The groups of the rows that follow an open group `(key, vs)`: the leading
rows with the same key extend the open group. -/
def groupRunsFrom (key : String) (vs : List String) (rows : List (String × String)) :
    List (String × List String) :=
  match groupRuns rows with
  | (k, ws) :: gs => if key = k then (key, vs ++ ws) :: gs else (key, vs) :: (k, ws) :: gs
  | [] => [(key, vs)]

/-- The `Reduce` function follows the protocol of the specification on the given
rows: it stays in its receive loop on every value of the rows, and it closes
its output once its value stream is closed. -/
def Reducer.followsProtocolOn {σ : Type} (client : Reducer σ) (rows : List (String × String)) :
    Prop :=
  (∀ kv ∈ rows, ∀ s, ∃ s1, client.onValue kv.1 s kv.2 = .inl s1) ∧
  (∀ key s, (client.onClose key s).closes = true)

/-! ## Partitioner lemmas -/

theorem fnv_write_eq (data : List Nat) (h : Nat) : fnv.Write h data = fnv1From h data := by
  induction data generalizing h with
  | nil => rfl
  | cons b bs ih =>
    simp only [fnv1From, fnv1Step]
    rw [← ih]
    simp [fnv.Write, prime32]

theorem partition_ok (R : Nat) (key : String) (hR : R % 2 ^ 32 ≠ 0) :
    partition R key = .ok (fnv1_32 (bytes key) % (R % 2 ^ 32)) := by
  unfold partition
  simp only [hR, if_false, fnv.Sum32, fnv.New32, offset32, fnv_write_eq, fnv1_32]

theorem bucket_lt (R h : Nat) (hR : R % 2 ^ 32 ≠ 0) : h % (R % 2 ^ 32) < R :=
  lt_of_lt_of_le (Nat.mod_lt _ (Nat.pos_of_ne_zero hR)) (Nat.mod_le _ _)

/-! ## Map task lemmas -/

theorem write_no_failure (R : Nat) (exec : MapExec) (hR : R % 2 ^ 32 ≠ 0)
    (hexec : ∀ n r p, exec n r p = none) (pairs : List Pair) (closes : Bool) (st : MapState) :
    (∀ b, (MapTask.write R exec pairs closes st).1.stores b
        = st.stores b ++ pairs.filter (fun p => decide (bucketOf R p.Key = b))) ∧
    (MapTask.write R exec pairs closes st).1.received = st.received ++ pairs ∧
    (MapTask.write R exec pairs closes st).2 = (if closes then .value none else .never) := by
  induction pairs generalizing st with
  | nil => simp [MapTask.write]
  | cons p rest ih =>
    have hlt : fnv1_32 (bytes p.Key) % (R % 2 ^ 32) < R := bucket_lt R _ hR
    simp only [MapTask.write, partition_ok R p.Key hR, hlt, if_true, hexec]
    obtain ⟨h1, h2, h3⟩ := ih
      { stores := fun i => if i = fnv1_32 (bytes p.Key) % (R % 2 ^ 32)
          then st.stores i ++ [p] else st.stores i,
        pt := st.pt + 1, received := st.received ++ [p] }
    refine ⟨?_, ?_, ?_⟩
    · intro b
      rw [h1 b]
      by_cases hb : b = fnv1_32 (bytes p.Key) % (R % 2 ^ 32)
      · subst hb
        simp only [List.filter_cons, bucketOf, decide_True, if_true, List.append_assoc,
          List.singleton_append]
      · have hb2 : ¬ fnv1_32 (bytes p.Key) % (R % 2 ^ 32) = b := fun h => hb h.symm
        simp only [List.filter_cons, bucketOf, hb, hb2, decide_False, if_false, Bool.false_eq_true]
    · rw [h2]; simp
    · exact h3

theorem range_flatMap_single {α : Type} (a : α) (k R : Nat) :
    (List.range R).flatMap (fun b => if k = b then [a] else []) = if k < R then [a] else [] := by
  induction R with
  | zero => simp
  | succ n ih =>
    rw [List.range_succ, List.flatMap_append, ih]
    by_cases h1 : k < n
    · have h2 : k ≠ n := Nat.ne_of_lt h1
      have h3 : k < n + 1 := Nat.lt_succ_of_lt h1
      simp [h1, h2, h3]
    · by_cases h2 : k = n
      · subst h2; simp
      · have h3 : ¬ k < n + 1 := fun h => h2 (Nat.eq_of_lt_succ_of_not_lt h h1)
        simp [h1, h2, h3]

theorem range_flatMap_filter_perm {α : Type} (f : α → Nat) (R : Nat) (l : List α)
    (hf : ∀ a ∈ l, f a < R) :
    ((List.range R).flatMap (fun b => l.filter (fun p => decide (f p = b)))).Perm l := by
  induction l with
  | nil => simp
  | cons a l ih =>
    have hfa : f a < R := hf a (List.mem_cons_self a l)
    have hl : ∀ x ∈ l, f x < R := fun x hx => hf x (List.mem_cons_of_mem a hx)
    have heq : (fun b => (a :: l).filter (fun p => decide (f p = b)))
        = fun b => (if f a = b then [a] else []) ++ l.filter (fun p => decide (f p = b)) := by
      funext b
      by_cases h : f a = b <;> simp [List.filter_cons, h]
    rw [heq]
    refine (List.flatMap_append_perm (List.range R) _ _).symm.trans ?_
    rw [range_flatMap_single, if_pos hfa]
    exact List.Perm.cons a (ih hl)

theorem loop_no_failure (R : Nat) (client : Mapper) (exec : MapExec) (hR : R % 2 ^ 32 ≠ 0)
    (hexec : ∀ n r p, exec n r p = none) (rows : List (String × String)) (st : MapState) :
    ∃ got : List Pair,
      (MapTask.loop R client exec (rows.map .ok) st).state.received = st.received ++ got ∧
      (∀ b, (MapTask.loop R client exec (rows.map .ok) st).state.stores b
        = st.stores b ++ got.filter (fun p => decide (bucketOf R p.Key = b))) ∧
      ((∀ kv ∈ rows, (client kv.1 kv.2).closes = true) →
        (MapTask.loop R client exec (rows.map .ok) st).outcome = .returned none ∧
        got = rows.flatMap (fun kv => (client kv.1 kv.2).out)) := by
  induction rows generalizing st with
  | nil => exact ⟨[], by simp [MapTask.loop]⟩
  | cons kv rows ih =>
    obtain ⟨key, value⟩ := kv
    obtain ⟨h1, h2, h3⟩ :=
      write_no_failure R exec hR hexec (client key value).out (client key value).closes st
    simp only [List.map_cons, MapTask.loop]
    generalize hw : MapTask.write R exec (client key value).out (client key value).closes st = w
      at h1 h2 h3
    obtain ⟨st1, j⟩ := w
    simp only at h1 h2 h3
    by_cases hc : (client key value).closes = true
    · rw [hc] at h3
      simp only [if_true] at h3
      subst h3
      obtain ⟨got, g1, g2, g3⟩ := ih st1
      refine ⟨(client key value).out ++ got, ?_, ?_, ?_⟩
      · simp only [g1, h2, List.append_assoc]
      · intro b
        simp only [g2 b, h1 b, List.filter_append, List.append_assoc]
      · intro hall
        obtain ⟨o1, o2⟩ := g3 (fun kv hkv => hall kv (List.mem_cons_of_mem _ hkv))
        exact ⟨o1, by simp [List.flatMap_cons, o2]⟩
    · have hj : j = .never := by simpa [hc] using h3
      subst hj
      refine ⟨(client key value).out, h2, h1, ?_⟩
      intro hall
      exact absurd (hall (key, value) (List.mem_cons_self _ _)) hc

theorem loop_never_returns_insert_error (R : Nat) (client : Mapper) (exec : MapExec)
    (rows : List (String × String)) (st : MapState) (e : Error) :
    (MapTask.loop R client exec (rows.map .ok) st).outcome ≠ .returned (some e) := by
  induction rows generalizing st with
  | nil => simp [MapTask.loop]
  | cons kv rows ih =>
    obtain ⟨key, value⟩ := kv
    simp only [List.map_cons, MapTask.loop]
    generalize MapTask.write R exec (client key value).out (client key value).closes st = w
    obtain ⟨st1, j⟩ := w
    cases j with
    | value err => exact ih st1
    | never => simp
    | panic msg => simp

theorem write_never_panics (R : Nat) (exec : MapExec) (hR : R % 2 ^ 32 ≠ 0)
    (pairs : List Pair) (closes : Bool) (st : MapState) (msg : String) :
    (MapTask.write R exec pairs closes st).2 ≠ .panic msg := by
  induction pairs generalizing st with
  | nil => cases closes <;> simp [MapTask.write]
  | cons p rest ih =>
    have hlt : fnv1_32 (bytes p.Key) % (R % 2 ^ 32) < R := bucket_lt R _ hR
    simp only [MapTask.write, partition_ok R p.Key hR, hlt, if_true]
    split
    · split <;> simp
    · exact ih _

/-! ## Claims about the map task and the partitioner -/

/-- Coverage of the record loop: when the low 32 bits of `R` are not all zero
and no insert fails, each output store `b` holds exactly the received pairs
whose bucket is `b`, in the order received; the bucket is the one `partition`
computes and is below `R`; the concatenation of the stores `0..R-1` is a
permutation of the received pairs; and when every `Map` call closes its
channel, the loop returns `nil` and the received pairs are exactly the pairs
emitted for all records. -/
theorem map_loop_partition_coverage (R : Nat) (client : Mapper) (exec : MapExec)
    (rows : List (String × String)) (hR : R % 2 ^ 32 ≠ 0)
    (hexec : ∀ n r p, exec n r p = none) :
    (∀ b, (MapTask.Process R client exec (rows.map .ok)).state.stores b
      = (MapTask.Process R client exec (rows.map .ok)).state.received.filter
          (fun p => decide (bucketOf R p.Key = b))) ∧
    (∀ p : Pair, partition R p.Key = .ok (bucketOf R p.Key) ∧ bucketOf R p.Key < R) ∧
    ((List.range R).flatMap (MapTask.Process R client exec (rows.map .ok)).state.stores).Perm
      (MapTask.Process R client exec (rows.map .ok)).state.received ∧
    ((∀ kv ∈ rows, (client kv.1 kv.2).closes = true) →
      (MapTask.Process R client exec (rows.map .ok)).outcome = .returned none ∧
      (MapTask.Process R client exec (rows.map .ok)).state.received
        = rows.flatMap (fun kv => (client kv.1 kv.2).out)) := by
  obtain ⟨got, g1, g2, g3⟩ := loop_no_failure R client exec hR hexec rows MapState.init
  have hrec : (MapTask.Process R client exec (rows.map .ok)).state.received = got := by
    simpa [MapTask.Process, MapState.init] using g1
  have hst : ∀ b, (MapTask.Process R client exec (rows.map .ok)).state.stores b
      = got.filter (fun p => decide (bucketOf R p.Key = b)) := by
    intro b
    simpa [MapTask.Process, MapState.init] using g2 b
  refine ⟨?_, ?_, ?_, ?_⟩
  · intro b
    rw [hst b, hrec]
  · intro p
    exact ⟨partition_ok R p.Key hR, bucket_lt R _ hR⟩
  · rw [hrec, funext hst]
    exact range_flatMap_filter_perm (fun p : Pair => bucketOf R p.Key) R got
      (fun (p : Pair) _ => bucket_lt R _ hR)
  · intro hall
    obtain ⟨o1, o2⟩ := g3 hall
    exact ⟨o1, by rw [hrec, o2]⟩

theorem openStores_none (host : MapHost) (n i0 : Nat)
    (h : MapTask.openStores host i0 n = none) :
    ∀ i, i0 ≤ i → i < i0 + n → host.createDatabase i = none ∧ host.Prepare i = none := by
  induction n generalizing i0 with
  | zero => intro i h1 h2; omega
  | succ n ih =>
    rw [MapTask.openStores] at h
    cases hc : host.createDatabase i0 with
    | some err => simp [hc] at h
    | none =>
      cases hp : host.Prepare i0 with
      | some err => simp [hc, hp] at h
      | none =>
        simp only [hc, hp] at h
        intro i h1 h2
        by_cases hi : i = i0
        · subst hi; exact ⟨hc, hp⟩
        · exact ih (i0 + 1) h i (by omega) (by omega)

theorem stores_opened_lt (host : MapHost) (R : Nat) (hhost : host.failsBelow (2 ^ 32))
    (h : MapTask.openStores host 0 R = none) : R < 2 ^ 32 := by
  obtain ⟨i, hi, hfail⟩ := hhost
  by_contra hR
  have hlt : i < 0 + R := by omega
  obtain ⟨h1, h2⟩ := openStores_none host R 0 h i (Nat.zero_le i) hlt
  rcases hfail with hf | hf
  · exact hf h1
  · exact hf h2

theorem setup_none_stores (host : MapHost) (R : Nat) (h : MapTask.setup host R = none) :
    MapTask.openStores host 0 R = none := by
  unfold MapTask.setup at h
  cases hd : host.download with
  | some err => simp [hd] at h
  | none =>
    cases ho : MapTask.openStores host 0 R with
    | some err => simp [hd, ho] at h
    | none => rfl

/-- C1: for every `R ≥ 1`, on a host that cannot hold `2^32` output stores, and
every run of `MapTask.Process` in which no insert fails: each output store `b`
holds exactly the received pairs whose bucket `FNV-1(key) mod R` is `b`, in the
order received; for every received pair that bucket is the index `partition`
computes and is below `R`; the concatenation of the stores `0..R-1` is a
permutation of the received pairs, so none is lost and none is duplicated; and
when the set-up succeeds and every `Map` call closes its channel, `Process`
returns `nil` and the received pairs are exactly the pairs emitted for all
records. -/
theorem map_process_partition_coverage (host : MapHost) (R : Nat) (client : Mapper)
    (exec : MapExec) (rows : List (String × String)) (hR : 1 ≤ R)
    (hhost : host.failsBelow (2 ^ 32)) (hexec : ∀ n r p, exec n r p = none) :
    (∀ b, (MapTask.ProcessOn host R client exec (rows.map .ok)).state.stores b
      = (MapTask.ProcessOn host R client exec (rows.map .ok)).state.received.filter
          (fun p => decide (fnv1_32 (bytes p.Key) % R = b))) ∧
    (∀ p ∈ (MapTask.ProcessOn host R client exec (rows.map .ok)).state.received,
      partition R p.Key = .ok (fnv1_32 (bytes p.Key) % R) ∧ fnv1_32 (bytes p.Key) % R < R) ∧
    ((List.range R).flatMap
        (MapTask.ProcessOn host R client exec (rows.map .ok)).state.stores).Perm
      (MapTask.ProcessOn host R client exec (rows.map .ok)).state.received ∧
    (MapTask.setup host R = none →
      (∀ kv ∈ rows, (client kv.1 kv.2).closes = true) →
      (MapTask.ProcessOn host R client exec (rows.map .ok)).outcome = .returned none ∧
      (MapTask.ProcessOn host R client exec (rows.map .ok)).state.received
        = rows.flatMap (fun kv => (client kv.1 kv.2).out)) := by
  cases hset : MapTask.setup host R with
  | some err =>
    have hP : MapTask.ProcessOn host R client exec (rows.map .ok)
        = { state := MapState.init, outcome := .returned (some err) } := by
      simp only [MapTask.ProcessOn, hset]
    rw [hP]
    refine ⟨fun b => rfl, ?_, ?_, ?_⟩
    · intro p hp
      simp [MapState.init] at hp
    · simp [MapState.init]
    · intro h
      simp at h
  | none =>
    have hlt : R < 2 ^ 32 := stores_opened_lt host R hhost (setup_none_stores host R hset)
    have hmod : R % 2 ^ 32 = R := Nat.mod_eq_of_lt hlt
    have hR2 : R % 2 ^ 32 ≠ 0 := by rw [hmod]; exact Nat.pos_iff_ne_zero.mp hR
    have hb : ∀ key, bucketOf R key = fnv1_32 (bytes key) % R := by
      intro key
      rw [bucketOf, hmod]
    have hP : MapTask.ProcessOn host R client exec (rows.map .ok)
        = MapTask.Process R client exec (rows.map .ok) := by
      simp only [MapTask.ProcessOn, hset]
    obtain ⟨c1, c2, c3, c4⟩ := map_loop_partition_coverage R client exec rows hR2 hexec
    rw [hP]
    refine ⟨?_, ?_, c3, fun _ hall => c4 hall⟩
    · intro b
      rw [c1 b]
      simp only [hb]
    · intro p _
      have := c2 p
      rw [hb] at this
      exact this

/-- Witness for C1: a host with room for 8 output stores, three buckets, the
word-count client and one record; the three emitted pairs are received and the
stores partition them.  On the same host a task with `2^32` buckets returns the
error of `createDatabase` before any record is read. -/
theorem map_process_partition_coverage_witness :
    (1 ≤ 3) ∧ MapHost.small.failsBelow (2 ^ 32) ∧
    ((List.range 3).flatMap
        (MapTask.ProcessOn MapHost.small 3 (Client.Map Unicode.ascii) (fun _ _ _ => none)
          ([("d1", "the cat sat")].map .ok)).state.stores).Perm
      (MapTask.ProcessOn MapHost.small 3 (Client.Map Unicode.ascii) (fun _ _ _ => none)
          ([("d1", "the cat sat")].map .ok)).state.received ∧
    (MapTask.ProcessOn MapHost.small 3 (Client.Map Unicode.ascii) (fun _ _ _ => none)
          ([("d1", "the cat sat")].map .ok)).state.received
      = [{ Key := "the", Value := "1" }, { Key := "cat", Value := "1" },
         { Key := "sat", Value := "1" }] ∧
    (MapTask.ProcessOn MapHost.small 3 (Client.Map Unicode.ascii) (fun _ _ _ => none)
          ([("d1", "the cat sat")].map .ok)).outcome = .returned none ∧
    (MapTask.ProcessOn MapHost.small 4294967296 (Client.Map Unicode.ascii) (fun _ _ _ => none)
          ([("d1", "the cat sat")].map .ok)).outcome
      = .returned (some (.store "too many open files")) :=
  ⟨by decide, ⟨8, by decide, Or.inl (by decide)⟩,
   (map_process_partition_coverage MapHost.small 3 (Client.Map Unicode.ascii)
      (fun _ _ _ => none) [("d1", "the cat sat")] (by decide)
      ⟨8, by decide, Or.inl (by decide)⟩ (fun _ _ _ => rfl)).2.2.1,
   by decide, by decide, by decide⟩

/-- C3 (code evaluated at the failing input): when the insert of the only pair
of a record fails, `MapTask.Process` returns `nil` with nothing persisted; when
the failing pair is followed by another pair of the same record, `Process`
blocks for ever; and whatever the client, the records and the failing inserts,
`Process` never returns a non-nil error once the rows scan. -/
theorem map_process_drops_insert_error :
    (MapTask.Process 1 (Client.Map Unicode.ascii) (fun _ _ _ => some (.store "disk full"))
        [.ok ("d1", "the")]).outcome = .returned none ∧
    (MapTask.Process 1 (Client.Map Unicode.ascii) (fun _ _ _ => some (.store "disk full"))
        [.ok ("d1", "the")]).state.stores 0 = [] ∧
    (MapTask.Process 1 (Client.Map Unicode.ascii) (fun _ _ _ => some (.store "disk full"))
        [.ok ("d1", "the cat")]).outcome = .blocked ∧
    (∀ (R : Nat) (client : Mapper) (exec : MapExec) (rows : List (String × String))
        (e : Error),
      (MapTask.Process R client exec (rows.map .ok)).outcome ≠ .returned (some e)) :=
  ⟨by decide, by decide, by decide,
   fun R client exec rows e => loop_never_returns_insert_error R client exec rows _ e⟩

/-- C6: for `1 ≤ R < 2^32` the bucket index computed in `MapTask.write` is the
32-bit FNV-1 hash of the bytes of the key modulo `R`, a function of the key and
`R` alone that is below `R`; `write` appends the pair to the store of that
index and never panics, so `tasks[r]` is always in range.  The reference hash
is pinned by the published FNV-1 value of the string `a`. -/
theorem partition_is_fnv1_mod (R : Nat) (key : String) (h1 : 1 ≤ R) (h2 : R < 2 ^ 32) :
    partition R key = .ok (fnv1_32 (bytes key) % R) ∧
    fnv1_32 (bytes key) % R < R ∧
    fnv1_32 (bytes "a") = 0x050c5d7e ∧
    (∀ (exec : MapExec) (value : String) (st : MapState),
      exec (st.pt + 1) (fnv1_32 (bytes key) % R) { Key := key, Value := value } = none →
      (MapTask.write R exec [{ Key := key, Value := value }] true st).1.stores
          (fnv1_32 (bytes key) % R)
        = st.stores (fnv1_32 (bytes key) % R) ++ [{ Key := key, Value := value }]) ∧
    (∀ (exec : MapExec) (pairs : List Pair) (closes : Bool) (st : MapState) (msg : String),
      (MapTask.write R exec pairs closes st).2 ≠ .panic msg) := by
  have hmod : R % 2 ^ 32 = R := Nat.mod_eq_of_lt h2
  have hR : R % 2 ^ 32 ≠ 0 := by rw [hmod]; exact Nat.pos_iff_ne_zero.mp h1
  have hp : ∀ k, partition R k = .ok (fnv1_32 (bytes k) % R) := by
    intro k
    have := partition_ok R k hR
    rwa [hmod] at this
  have hlt : ∀ k, fnv1_32 (bytes k) % R < R := fun k => Nat.mod_lt _ h1
  refine ⟨hp key, hlt key, by decide, ?_, ?_⟩
  · intro exec value st hex
    simp [MapTask.write, hp, hlt, hex]
  · intro exec pairs closes st msg
    exact write_never_panics R exec hR pairs closes st msg

/-- Witness for C6: three buckets and the key `the`. -/
theorem partition_is_fnv1_mod_witness :
    (1 ≤ 3) ∧ (3 < 2 ^ 32) ∧ partition 3 "the" = .ok (fnv1_32 (bytes "the") % 3) :=
  ⟨by decide, by decide, (partition_is_fnv1_mod 3 "the" (by decide) (by decide)).1⟩

/-! ## Claims about the word-count client -/

theorem fieldsFrom_eq_splitOnP (U : Unicode) (cs cur : List Char) :
    strings.fieldsFrom U cs cur
      = ((List.splitOnP.go U.IsSpace cs cur).filter (fun t => !t.isEmpty)).map String.mk := by
  induction cs generalizing cur with
  | nil =>
    by_cases h : cur = []
    · simp [strings.fieldsFrom, List.splitOnP.go, h]
    · simp [strings.fieldsFrom, List.splitOnP.go, h, List.filter_cons]
  | cons c cs ih =>
    by_cases hc : U.IsSpace c = true
    · by_cases h : cur = []
      · simp [strings.fieldsFrom, List.splitOnP.go, hc, h, ih, List.filter_cons]
      · simp [strings.fieldsFrom, List.splitOnP.go, hc, h, ih, List.filter_cons]
    · simp [strings.fieldsFrom, List.splitOnP.go, hc, ih]

theorem fields_eq_tokens (U : Unicode) (value : String) :
    strings.Fields U value = tokensOf U value := by
  simp [strings.Fields, tokensOf, fieldsFrom_eq_splitOnP, List.splitOnP]

theorem utf8Bytes_ne_nil (c : Char) : utf8Bytes c ≠ [] := by
  unfold utf8Bytes
  simp only
  split_ifs <;> simp

theorem bytes_length_pos_iff (s : String) : (bytes s).length > 0 ↔ s ≠ "" := by
  obtain ⟨l⟩ := s
  cases l with
  | nil => simp [bytes]
  | cons c cs =>
    have h := utf8Bytes_ne_nil c
    have h2 : (String.mk (c :: cs)) ≠ "" := by
      intro h3
      have := congrArg String.data h3
      simp at this
    simp [bytes, h2, List.length_pos, h]

theorem strings_map_eq_image (U : Unicode) (token : String) :
    strings.Map (Client.mapping U) token = imageOf U token := by
  unfold strings.Map imageOf
  congr 1
  induction token.toList with
  | nil => rfl
  | cons c cs ih =>
    by_cases h : (U.IsLetter c || U.IsDigit c) = true
    · simp only [List.filterMap_cons, Client.mapping, h, if_true, List.filter_cons, List.map_cons]
      rw [← ih]
    · simp only [List.filterMap_cons, Client.mapping, h, if_false, List.filter_cons]
      simpa using ih

theorem mapLoop_eq_filterMap (U : Unicode) (lst : List String) :
    Client.mapLoop U lst
      = lst.filterMap (fun t =>
          if imageOf U t = "" then none else some { Key := imageOf U t, Value := "1" }) := by
  induction lst with
  | nil => rfl
  | cons t lst ih =>
    by_cases h : imageOf U t = ""
    · have h2 : ¬ (bytes (imageOf U t)).length > 0 := by
        rw [bytes_length_pos_iff]; simpa using h
      rw [Client.mapLoop, List.filterMap_cons]
      simp only [strings_map_eq_image, h2, if_false, ih]
      simp only [h, if_true]
    · have h2 : (bytes (imageOf U t)).length > 0 := (bytes_length_pos_iff _).mpr h
      simp only [Client.mapLoop, strings_map_eq_image, h2, if_true, List.filterMap_cons, h,
        if_false, ih]

theorem client_map_example (U : Unicode) (hU : U.agreesOnASCII) :
    (Client.Map U "d2" "the dog sat, too!").out
      = [{ Key := "the", Value := "1" }, { Key := "dog", Value := "1" },
         { Key := "sat", Value := "1" }, { Key := "too", Value := "1" }] := by
  have e1 : "the dog sat, too!".toList
      = ['t', 'h', 'e', ' ', 'd', 'o', 'g', ' ', 's', 'a', 't', ',', ' ', 't', 'o', 'o', '!'] :=
    rfl
  have key : ∀ c : Char, c.toNat < 128 →
      U.IsSpace c = Unicode.ascii.IsSpace c ∧ Client.mapping U c = Client.mapping Unicode.ascii c := by
    intro c hc
    obtain ⟨h1, h2, h3, h4⟩ := hU c hc
    exact ⟨h1, by simp only [Client.mapping, h2, h3, h4]⟩
  have kt := key 't' (by decide)
  have kh := key 'h' (by decide)
  have ke := key 'e' (by decide)
  have ksp := key ' ' (by decide)
  have kd := key 'd' (by decide)
  have ko := key 'o' (by decide)
  have kg := key 'g' (by decide)
  have ks := key 's' (by decide)
  have ka := key 'a' (by decide)
  have kc := key ',' (by decide)
  have kb := key '!' (by decide)
  have vt : Unicode.ascii.IsSpace 't' = false ∧ Client.mapping Unicode.ascii 't' = some 't' := by decide
  have vh : Unicode.ascii.IsSpace 'h' = false ∧ Client.mapping Unicode.ascii 'h' = some 'h' := by decide
  have ve : Unicode.ascii.IsSpace 'e' = false ∧ Client.mapping Unicode.ascii 'e' = some 'e' := by decide
  have vsp : Unicode.ascii.IsSpace ' ' = true ∧ Client.mapping Unicode.ascii ' ' = none := by decide
  have vd : Unicode.ascii.IsSpace 'd' = false ∧ Client.mapping Unicode.ascii 'd' = some 'd' := by decide
  have vo : Unicode.ascii.IsSpace 'o' = false ∧ Client.mapping Unicode.ascii 'o' = some 'o' := by decide
  have vg : Unicode.ascii.IsSpace 'g' = false ∧ Client.mapping Unicode.ascii 'g' = some 'g' := by decide
  have vs : Unicode.ascii.IsSpace 's' = false ∧ Client.mapping Unicode.ascii 's' = some 's' := by decide
  have va : Unicode.ascii.IsSpace 'a' = false ∧ Client.mapping Unicode.ascii 'a' = some 'a' := by decide
  have vc : Unicode.ascii.IsSpace ',' = false ∧ Client.mapping Unicode.ascii ',' = none := by decide
  have vb : Unicode.ascii.IsSpace '!' = false ∧ Client.mapping Unicode.ascii '!' = none := by decide
  rw [vt.1, vt.2] at kt
  rw [vh.1, vh.2] at kh
  rw [ve.1, ve.2] at ke
  rw [vsp.1, vsp.2] at ksp
  rw [vd.1, vd.2] at kd
  rw [vo.1, vo.2] at ko
  rw [vg.1, vg.2] at kg
  rw [vs.1, vs.2] at ks
  rw [va.1, va.2] at ka
  rw [vc.1, vc.2] at kc
  rw [vb.1, vb.2] at kb
  simp only [Client.Map, strings.Fields, e1, strings.fieldsFrom, kt.1, kh.1, ke.1, ksp.1, kd.1,
    ko.1, kg.1, ks.1, ka.1, kc.1, kb.1, if_true, if_false, Bool.false_eq_true,
    List.reverse_cons, List.reverse_nil, List.nil_append, List.cons_append, reduceCtorEq,
    Client.mapLoop, strings.Map, String.toList, List.filterMap_cons, List.filterMap_nil,
    kt.2, kh.2, ke.2, ksp.2, kd.2, ko.2, kg.2, ks.2, ka.2, kc.2, kb.2]
  decide

/-- C7: for every key and value, `Client.Map` emits, in token order, exactly one
pair `(w, "1")` for each white-space separated token of the value whose image
`w` (letters and digits kept, lowercased) is not empty, and nothing else; it
closes its output and returns `nil`.  With the classification of ASCII runes
of Go's `unicode` package, the record `("d2", "the dog sat, too!")` yields
`the`, `dog`, `sat`, `too`. -/
theorem client_map_emits_token_images (U : Unicode) (key value : String) :
    (Client.Map U key value).out
      = (tokensOf U value).filterMap (fun t =>
          if imageOf U t = "" then none else some { Key := imageOf U t, Value := "1" }) ∧
    (Client.Map U key value).closes = true ∧
    (Client.Map U key value).err = none ∧
    (U.agreesOnASCII →
      (Client.Map U "d2" "the dog sat, too!").out
        = [{ Key := "the", Value := "1" }, { Key := "dog", Value := "1" },
           { Key := "sat", Value := "1" }, { Key := "too", Value := "1" }]) := by
  refine ⟨?_, rfl, rfl, client_map_example U⟩
  simp only [Client.Map, fields_eq_tokens, mapLoop_eq_filterMap]

/-- Witness for C7: the ASCII tables satisfy the hypothesis of the example. -/
theorem client_map_emits_token_images_witness :
    Unicode.ascii.agreesOnASCII ∧
    (Client.Map Unicode.ascii "d2" "the dog sat, too!").out
      = [{ Key := "the", Value := "1" }, { Key := "dog", Value := "1" },
         { Key := "sat", Value := "1" }, { Key := "too", Value := "1" }] :=
  ⟨fun _ _ => ⟨rfl, rfl, rfl, rfl⟩,
   (client_map_emits_token_images Unicode.ascii "d2" "the dog sat, too!").2.2.2
     (fun _ _ => ⟨rfl, rfl, rfl, rfl⟩)⟩

theorem wrapInt_add (a b : Int) : wrapInt (wrapInt a + b) = wrapInt (a + b) := by
  unfold wrapInt
  omega

theorem wrapInt_idem (a : Int) : wrapInt (wrapInt a) = wrapInt a := by
  unfold wrapInt
  omega

theorem wrapInt_of_range (a : Int) (h1 : -2 ^ 63 ≤ a) (h2 : a < 2 ^ 63) : wrapInt a = a := by
  unfold wrapInt
  omega

theorem parses_true {v : String} (h : parses v = true) : ∃ i, strconv.Atoi v = .ok i := by
  unfold parses at h
  cases hv : strconv.Atoi v with
  | error e => simp [hv] at h
  | ok i => exact ⟨i, rfl⟩

theorem reduce_run_all_parse (key : String) (values : List String) (count : Int)
    (hall : ∀ v ∈ values, ∃ i, strconv.Atoi v = .ok i) :
    Reducer.run Client.Reduce key count values
      = { out := [{ Key := key,
                    Value := strconv.Itoa
                      (values.foldl (fun c v => wrapInt (c + atoiValue v)) count) }],
          closes := true, err := none } := by
  induction values generalizing count with
  | nil => rfl
  | cons v vs ih =>
    obtain ⟨i, hi⟩ := hall v (List.mem_cons_self v vs)
    have hv : atoiValue v = i := by simp [atoiValue, hi]
    rw [Reducer.run]
    simp only [Client.Reduce, hi]
    have := ih (wrapInt (count + i)) (fun w hw => hall w (List.mem_cons_of_mem v hw))
    simp only [Client.Reduce] at this
    rw [this, List.foldl_cons, hv]

theorem foldl_wrapInt (values : List String) (count : Int) :
    wrapInt (values.foldl (fun c v => wrapInt (c + atoiValue v)) count)
      = wrapInt (count + (values.map atoiValue).sum) := by
  induction values generalizing count with
  | nil => simp
  | cons v vs ih =>
    rw [List.foldl_cons, ih, List.map_cons, List.sum_cons, wrapInt_add, add_assoc]

theorem foldl_wrapInt_zero (values : List String) :
    values.foldl (fun c v => wrapInt (c + atoiValue v)) 0
      = wrapInt ((values.map atoiValue).sum) := by
  have h := foldl_wrapInt values 0
  rw [zero_add] at h
  rw [← h]
  cases values using List.reverseRecOn with
  | nil => simp [wrapInt]
  | append_singleton vs v =>
    rw [List.foldl_append, List.foldl_cons, List.foldl_nil, wrapInt_idem]

theorem reduce_run_some_fails (key : String) (values : List String) (count : Int)
    (hbad : ∃ v ∈ values, parses v = false) :
    (Reducer.run Client.Reduce key count values).out = [] ∧
    ∃ e, (Reducer.run Client.Reduce key count values).err = some e := by
  induction values generalizing count with
  | nil => obtain ⟨v, hv, _⟩ := hbad; simp at hv
  | cons v vs ih =>
    rw [Reducer.run]
    cases hv : strconv.Atoi v with
    | error e => simp [Client.Reduce, hv]
    | ok i =>
      have hrest : ∃ w ∈ vs, parses w = false := by
        obtain ⟨w, hw, hwbad⟩ := hbad
        rcases List.mem_cons.mp hw with h | h
        · subst h; simp [parses, hv] at hwbad
        · exact ⟨w, h, hwbad⟩
      have := ih (wrapInt (count + i)) hrest
      simpa [Client.Reduce, hv] using this

/-- C8 (amended): run on a finite value stream from `count = 0`, `Client.Reduce`
emits exactly one pair when every value is accepted by `strconv.Atoi`: the key
with the decimal rendering of the sum of the values reduced to the range of the
64-bit `int` (the exact sum whenever it lies in `[-2^63, 2^63 - 1]`), and it
returns `nil`; when some value is rejected it emits no pair and returns a
non-nil error.  The key `the` with values `1`, `1` yields `("the", "2")`. -/
theorem client_reduce_sums_values (key : String) (values : List String) :
    ((∀ v ∈ values, parses v = true) →
      Reducer.run Client.Reduce key (Client.Reduce.start key) values
        = { out := [{ Key := key,
                      Value := strconv.Itoa (wrapInt ((values.map atoiValue).sum)) }],
            closes := true, err := none } ∧
      (-2 ^ 63 ≤ (values.map atoiValue).sum → (values.map atoiValue).sum < 2 ^ 63 →
        (Reducer.run Client.Reduce key (Client.Reduce.start key) values).out
          = [{ Key := key, Value := strconv.Itoa ((values.map atoiValue).sum) }])) ∧
    ((∃ v ∈ values, parses v = false) →
      (Reducer.run Client.Reduce key (Client.Reduce.start key) values).out = [] ∧
      ∃ e, (Reducer.run Client.Reduce key (Client.Reduce.start key) values).err = some e) ∧
    (Reducer.run Client.Reduce "the" (Client.Reduce.start "the") ["1", "1"]).out
      = [{ Key := "the", Value := "2" }] := by
  refine ⟨?_, ?_, by decide⟩
  · intro hall
    have h := reduce_run_all_parse key values 0 (fun v hv => parses_true (hall v hv))
    rw [foldl_wrapInt_zero] at h
    refine ⟨h, ?_⟩
    intro h1 h2
    have h3 : Reducer.run Client.Reduce key (Client.Reduce.start key) values
        = Reducer.run Client.Reduce key 0 values := rfl
    rw [h3, h, wrapInt_of_range _ h1 h2]
  · intro hbad
    exact reduce_run_some_fails key values 0 hbad

/-- Witness for C8: the values `20`, `-3`, `+4` are all accepted. -/
theorem client_reduce_sums_values_witness :
    (∀ v ∈ ["20", "-3", "+4"], parses v = true) ∧
    (Reducer.run Client.Reduce "k" (Client.Reduce.start "k") ["20", "-3", "+4"])
      = { out := [{ Key := "k",
                    Value := strconv.Itoa (wrapInt ((["20", "-3", "+4"].map atoiValue).sum)) }],
          closes := true, err := none } ∧
    strconv.Itoa (wrapInt ((["20", "-3", "+4"].map atoiValue).sum)) = "21" :=
  ⟨by decide,
   ((client_reduce_sums_values "k" ["20", "-3", "+4"]).1 (by decide)).1,
   by decide⟩

/-- Counterexample to C8 as stated: both values are accepted by `strconv.Atoi`
and their sum is `9223372036854775808`, but the addition on `int` wraps and the
pair emitted carries `-9223372036854775808`. -/
theorem client_reduce_sum_overflows :
    (∀ v ∈ ["9223372036854775807", "1"], parses v = true) ∧
    strconv.Itoa ((["9223372036854775807", "1"].map atoiValue).sum) = "9223372036854775808" ∧
    (Reducer.run Client.Reduce "the" (Client.Reduce.start "the")
        ["9223372036854775807", "1"]).out
      = [{ Key := "the", Value := "-9223372036854775808" }] ∧
    (Reducer.run Client.Reduce "the" (Client.Reduce.start "the")
        ["9223372036854775807", "1"]).out
      ≠ [{ Key := "the",
           Value := strconv.Itoa ((["9223372036854775807", "1"].map atoiValue).sum) }] :=
  ⟨by decide, by decide, by decide, by decide⟩

/-! ## Reduce task lemmas -/

theorem GroupState.run_append (s : GroupState) (t1 t2 : List Event) :
    GroupState.run s (t1 ++ t2)
      = (GroupState.run s t1).bind (fun s1 => GroupState.run s1 t2) := by
  induction t1 generalizing s with
  | nil => rfl
  | cons e es ih =>
    simp only [List.cons_append, GroupState.run]
    cases h : s.next e with
    | none => rfl
    | some s1 => exact ih s1

theorem GroupState.run_snoc (s g : GroupState) (t : List Event) (e : Event)
    (h : GroupState.run s t = some g) :
    GroupState.run s (t ++ [e]) = g.next e := by
  rw [GroupState.run_append, h]
  simp only [Option.bind, GroupState.run]
  cases g.next e <;> rfl

theorem drain_exclusive {σ : Type} (exec : ReduceExec) (closes : Bool) (out : List Pair)
    (st : ReduceState σ) (k : String)
    (h : GroupState.run .NoGroup st.trace = some (.GroupClosing k st.chan)) :
    ((ReduceTask.drain exec closes out st).2 = .go ∧
      GroupState.run .NoGroup (ReduceTask.drain exec closes out st).1.trace = some .NoGroup ∧
      (ReduceTask.drain exec closes out st).1.prev_key = st.prev_key) ∨
    (∃ o, (ReduceTask.drain exec closes out st).2 = .stop o ∧
      ∃ g, GroupState.run .NoGroup (ReduceTask.drain exec closes out st).1.trace = some g) := by
  induction out generalizing st with
  | nil =>
    cases closes with
    | true =>
      left
      simp only [ReduceTask.drain, if_true, true_and]
      rw [GroupState.run_snoc _ _ _ _ h]
      simp [GroupState.next]
    | false =>
      right
      exact ⟨.blocked, by simp [ReduceTask.drain], _, by simpa [ReduceTask.drain] using h⟩
  | cons i rest ih =>
    rw [ReduceTask.drain]
    cases hex : exec (st.execs + 1) i with
    | some err =>
      right
      refine ⟨.returned (some err), rfl, .GroupClosing k st.chan, ?_⟩
      simp only
      rw [GroupState.run_snoc _ _ _ _ h]
      simp [GroupState.next]
    | none =>
      simp only
      have h2 : GroupState.run .NoGroup (st.trace ++ [Event.persist st.chan i none])
          = some (.GroupClosing k st.chan) := by
        rw [GroupState.run_snoc _ _ _ _ h]
        simp [GroupState.next]
      exact ih { st with execs := st.execs + 1, outputDB := st.outputDB ++ [i],
                         trace := st.trace ++ [.persist st.chan i none] } h2

theorem drainLast_exclusive {σ : Type} (exec : ReduceExec) (closes : Bool) (out : List Pair)
    (st : ReduceState σ) (k : String)
    (h : GroupState.run .NoGroup st.trace = some (.GroupClosing k st.chan)) :
    (ReduceTask.drainLast exec closes out st).2 ≠ .overlap ∧
    ∃ g, GroupState.run .NoGroup (ReduceTask.drainLast exec closes out st).1.trace = some g := by
  induction out generalizing st with
  | nil =>
    cases closes with
    | true =>
      simp only [ReduceTask.drainLast, if_true]
      rw [GroupState.run_snoc _ _ _ _ h]
      simp [GroupState.next]
    | false => exact ⟨by simp [ReduceTask.drainLast], _, by simpa [ReduceTask.drainLast] using h⟩
  | cons i rest ih =>
    rw [ReduceTask.drainLast]
    have h2 : ∀ err, GroupState.run .NoGroup (st.trace ++ [Event.persist st.chan i err])
        = some (.GroupClosing k st.chan) := by
      intro err
      rw [GroupState.run_snoc _ _ _ _ h]
      simp [GroupState.next]
    cases hex : exec (st.execs + 1) i with
    | some err =>
      exact ih { st with execs := st.execs + 1,
                         trace := st.trace ++ [.persist st.chan i (some err)] } (h2 _)
    | none =>
      exact ih { st with execs := st.execs + 1, outputDB := st.outputDB ++ [i],
                         trace := st.trace ++ [.persist st.chan i none] } (h2 _)

theorem send_exclusive {σ : Type} (client : Reducer σ) (st : ReduceState σ) (value : String)
    (h : st.hasOpenGroup) :
    ((ReduceTask.send client st value).2 = .go ∧ (ReduceTask.send client st value).1.hasOpenGroup) ∨
    ((ReduceTask.send client st value).2 = .stop .blocked ∧
      (ReduceTask.send client st value).1.accepted) := by
  obtain ⟨h1, ⟨p, h2⟩, k, h3⟩ := h
  cases p with
  | receiving key s =>
    left
    simp only [ReduceTask.send, h2, true_and]
    refine ⟨h1, ⟨_, rfl⟩, k, ?_⟩
    simp only
    rw [GroupState.run_snoc _ _ _ _ h3]
    simp [GroupState.next]
  | finished f =>
    right
    simp only [ReduceTask.send, h2, true_and]
    exact ⟨_, h3⟩

theorem closeGroup_exclusive {σ : Type} (client : Reducer σ) (exec : ReduceExec)
    (st : ReduceState σ) (h : st.hasOpenGroup) :
    ((ReduceTask.closeGroup client exec st).2 = .go ∧
      (ReduceTask.closeGroup client exec st).1.proc = none ∧
      GroupState.run .NoGroup (ReduceTask.closeGroup client exec st).1.trace = some .NoGroup) ∨
    (∃ o, (ReduceTask.closeGroup client exec st).2 = .stop o ∧
      (ReduceTask.closeGroup client exec st).1.accepted) := by
  obtain ⟨_, ⟨p, h2⟩, k, h3⟩ := h
  have hc : ∃ f, ReduceTask.closing client st = some f := by
    cases p <;> simp [ReduceTask.closing, h2]
  obtain ⟨f, hf⟩ := hc
  have h4 : GroupState.run .NoGroup
      ({ st with trace := st.trace ++ [.closeInput st.chan] } : ReduceState σ).trace
        = some (.GroupClosing k st.chan) := by
    simp only
    rw [GroupState.run_snoc _ _ _ _ h3]
    simp [GroupState.next]
  have hd := drain_exclusive exec f.closes f.out
    { st with trace := st.trace ++ [.closeInput st.chan] } k h4
  simp only [ReduceTask.closeGroup, hf]
  generalize ReduceTask.drain exec f.closes f.out
    { st with trace := st.trace ++ [.closeInput st.chan] } = r at hd
  obtain ⟨st2, c⟩ := r
  rcases hd with ⟨g1, g2, _⟩ | ⟨o, g1, g2⟩
  · left
    simp only at g1 g2
    subst g1
    exact ⟨rfl, rfl, g2⟩
  · right
    simp only at g1 g2
    subst g1
    exact ⟨o, rfl, g2⟩

theorem openGroup_exclusive {σ : Type} (client : Reducer σ) (st : ReduceState σ) (key : String)
    (hkey : key ≠ "") (hp : st.proc = none)
    (ht : GroupState.run .NoGroup st.trace = some .NoGroup) :
    (ReduceTask.openGroup client st key).2 = .go ∧
    (ReduceTask.openGroup client st key).1.hasOpenGroup := by
  simp only [ReduceTask.openGroup, hp, true_and]
  refine ⟨hkey, ⟨_, rfl⟩, key, ?_⟩
  simp only
  rw [GroupState.run_snoc _ _ _ _ ht]
  simp [GroupState.next]

theorem step_exclusive {σ : Type} (client : Reducer σ) (exec : ReduceExec)
    (st : ReduceState σ) (key value : String) (hkey : key ≠ "") (h : st.hasOpenGroup) :
    ((ReduceTask.step client exec st key value).2 = .go ∧
      (ReduceTask.step client exec st key value).1.hasOpenGroup) ∨
    (∃ o, (ReduceTask.step client exec st key value).2 = .stop o ∧
      (ReduceTask.step client exec st key value).1.accepted) := by
  have hprev : (st.prev_key != "") = true := by simpa using h.1
  unfold ReduceTask.step
  by_cases hk : (st.prev_key != key) = true
  · simp only [hk, hprev, if_true]
    have hc := closeGroup_exclusive client exec st h
    generalize ReduceTask.closeGroup client exec st = r at hc
    obtain ⟨st1, c⟩ := r
    rcases hc with ⟨g1, g2, g3⟩ | ⟨o, g1, g2⟩
    · simp only at g1 g2 g3
      subst g1
      simp only
      have ho := openGroup_exclusive client st1 key hkey g2 g3
      generalize ReduceTask.openGroup client st1 key = r2 at ho
      obtain ⟨st2, c2⟩ := r2
      obtain ⟨o1, o2⟩ := ho
      simp only at o1 o2
      subst o1
      simp only
      rcases send_exclusive client st2 value o2 with hs | hs
      · exact Or.inl hs
      · exact Or.inr ⟨_, hs⟩
    · simp only at g1 g2
      subst g1
      right
      exact ⟨o, rfl, g2⟩
  · simp only [hk, if_false, Bool.false_eq_true]
    rcases send_exclusive client st value h with hs | hs
    · exact Or.inl hs
    · exact Or.inr ⟨_, hs⟩

theorem finish_exclusive {σ : Type} (client : Reducer σ) (exec : ReduceExec)
    (st : ReduceState σ) (h : st.hasOpenGroup) :
    (ReduceTask.finish client exec st).ctl ≠ .overlap ∧
    (ReduceTask.finish client exec st).state.accepted := by
  obtain ⟨_, ⟨p, h2⟩, k, h3⟩ := h
  have hc : ∃ f, ReduceTask.closing client st = some f := by
    cases p <;> simp [ReduceTask.closing, h2]
  obtain ⟨f, hf⟩ := hc
  have h4 : GroupState.run .NoGroup
      ({ st with trace := st.trace ++ [.closeInput st.chan] } : ReduceState σ).trace
        = some (.GroupClosing k st.chan) := by
    simp only
    rw [GroupState.run_snoc _ _ _ _ h3]
    simp [GroupState.next]
  have hd := drainLast_exclusive exec f.closes f.out
    { st with trace := st.trace ++ [.closeInput st.chan] } k h4
  simp only [ReduceTask.finish, hf]
  generalize ReduceTask.drainLast exec f.closes f.out
    { st with trace := st.trace ++ [.closeInput st.chan] } = r at hd
  obtain ⟨st2, c⟩ := r
  obtain ⟨d1, d2⟩ := hd
  simp only at d1 d2
  cases c with
  | go => exact ⟨by simp, d2⟩
  | stop o => exact ⟨by simp, d2⟩
  | overlap => exact absurd rfl d1

theorem loop_exclusive {σ : Type} (client : Reducer σ) (exec : ReduceExec)
    (rows : List (String × String)) (st : ReduceState σ)
    (hrows : ∀ kv ∈ rows, kv.1 ≠ "") (h : st.hasOpenGroup) :
    (ReduceTask.loop client exec rows st).ctl ≠ .overlap ∧
    (ReduceTask.loop client exec rows st).state.accepted := by
  induction rows generalizing st with
  | nil => exact finish_exclusive client exec st h
  | cons kv rows ih =>
    obtain ⟨key, value⟩ := kv
    have hkey : key ≠ "" := hrows (key, value) (List.mem_cons_self _ _)
    have hs := step_exclusive client exec st key value hkey h
    rw [ReduceTask.loop]
    generalize ReduceTask.step client exec st key value = r at hs
    obtain ⟨st1, c⟩ := r
    rcases hs with ⟨g1, g2⟩ | ⟨o, g1, g2⟩
    · simp only at g1 g2
      subst g1
      exact ih st1 (fun kv hkv => hrows kv (List.mem_cons_of_mem _ hkv)) g2
    · simp only at g1 g2
      subst g1
      exact ⟨by simp, g2⟩

theorem bytes_eq_nil_iff (s : String) : bytes s = [] ↔ s = "" := by
  constructor
  · intro h
    by_contra hne
    have := (bytes_length_pos_iff s).mpr hne
    rw [h] at this
    simp at this
  · intro h
    subst h
    rfl

theorem keys_nonempty_of_sorted (key value : String) (rows : List (String × String))
    (hkey : key ≠ "")
    (hs : ((key, value) :: rows).Sorted (fun a b => bytes a.1 ≤ bytes b.1)) :
    ∀ kv ∈ rows, kv.1 ≠ "" := by
  intro kv hkv hempty
  have hle : bytes key ≤ bytes kv.1 := List.rel_of_sorted_cons hs kv hkv
  rw [hempty] at hle
  have hnil : bytes "" = [] := rfl
  rw [hnil] at hle
  have : bytes key = [] := le_antisymm hle List.nil_le
  exact hkey ((bytes_eq_nil_iff key).mp this)

theorem loop_exclusive_of_sorted {σ : Type} (client : Reducer σ) (exec : ReduceExec)
    (rows : List (String × String))
    (hs : rows.Sorted (fun a b => bytes a.1 ≤ bytes b.1)) :
    (ReduceTask.loop client exec rows (ReduceState.init σ)).ctl ≠ .overlap ∧
    (ReduceTask.loop client exec rows (ReduceState.init σ)).state.accepted := by
  cases rows with
  | nil =>
    refine ⟨?_, .NoGroup, rfl⟩
    show Ctl.stop Outcome.blocked ≠ Ctl.overlap
    simp
  | cons kv rows =>
    obtain ⟨key, value⟩ := kv
    by_cases hkey : key = ""
    · subst hkey
      refine ⟨?_, .NoGroup, rfl⟩
      show Ctl.stop Outcome.blocked ≠ Ctl.overlap
      simp
    · have hrows := keys_nonempty_of_sorted key value rows hkey hs
      have hne : (("" : String) != key) = true := by
        simpa using fun h : "" = key => hkey h.symm
      have ho := openGroup_exclusive client (ReduceState.init σ) key hkey rfl rfl
      rw [ReduceTask.loop]
      have hstep : ReduceTask.step client exec (ReduceState.init σ) key value
          = match ReduceTask.openGroup client (ReduceState.init σ) key with
            | (st2, .go) => ReduceTask.send client st2 value
            | (st2, c) => (st2, c) := by
        simp [ReduceTask.step, ReduceState.init, hne]
      rw [hstep]
      generalize ReduceTask.openGroup client (ReduceState.init σ) key = r2 at ho
      obtain ⟨st2, c2⟩ := r2
      obtain ⟨o1, o2⟩ := ho
      simp only at o1 o2
      subst o1
      simp only
      have hsend := send_exclusive client st2 value o2
      generalize ReduceTask.send client st2 value = r3 at hsend
      obtain ⟨st3, c3⟩ := r3
      rcases hsend with ⟨g1, g2⟩ | ⟨g1, g2⟩
      · simp only at g1 g2
        subst g1
        exact loop_exclusive client exec rows st3 hrows g2
      · simp only at g1 g2
        subst g1
        exact ⟨by simp, g2⟩

theorem orderByKey_sorted (merged : List (String × String)) :
    (orderByKey merged).Sorted (fun a b => bytes a.1 ≤ bytes b.1) := by
  haveI : IsTotal (String × String) (fun a b => bytes a.1 ≤ bytes b.1) :=
    ⟨fun a b => le_total (bytes a.1) (bytes b.1)⟩
  haveI : IsTrans (String × String) (fun a b => bytes a.1 ≤ bytes b.1) :=
    ⟨fun _ _ _ h1 h2 => le_trans h1 h2⟩
  exact List.sorted_insertionSort _ merged


theorem drain_error_from_exec {σ : Type} (exec : ReduceExec) (closes : Bool) (out : List Pair)
    (st : ReduceState σ) (e : Error)
    (h : (ReduceTask.drain exec closes out st).2 = .stop (.returned (some e))) :
    ∃ n p, exec n p = some e := by
  induction out generalizing st with
  | nil => cases closes <;> simp [ReduceTask.drain] at h
  | cons i rest ih =>
    rw [ReduceTask.drain] at h
    cases hex : exec (st.execs + 1) i with
    | some err =>
      simp only [hex, Ctl.stop.injEq, Outcome.returned.injEq, Option.some.injEq] at h
      exact ⟨_, _, by rw [hex, h]⟩
    | none =>
      simp only [hex] at h
      exact ih _ h

theorem drainLast_never_returns_error {σ : Type} (exec : ReduceExec) (closes : Bool)
    (out : List Pair) (st : ReduceState σ) (e : Error) :
    (ReduceTask.drainLast exec closes out st).2 ≠ .stop (.returned (some e)) := by
  induction out generalizing st with
  | nil => cases closes <;> simp [ReduceTask.drainLast]
  | cons i rest ih =>
    rw [ReduceTask.drainLast]
    cases exec (st.execs + 1) i with
    | some err => exact ih _
    | none => exact ih _

theorem finish_never_returns_error {σ : Type} (client : Reducer σ) (exec : ReduceExec)
    (st : ReduceState σ) (e : Error) :
    (ReduceTask.finish client exec st).ctl ≠ .stop (.returned (some e)) := by
  unfold ReduceTask.finish
  cases hc : ReduceTask.closing client st with
  | none => simp
  | some f =>
    simp only
    have hd := drainLast_never_returns_error exec f.closes f.out
      { st with trace := st.trace ++ [.closeInput st.chan] } e
    generalize ReduceTask.drainLast exec f.closes f.out
      { st with trace := st.trace ++ [.closeInput st.chan] } = r at hd
    obtain ⟨st2, c⟩ := r
    cases c with
    | go => simp
    | stop o => simpa using hd
    | overlap => simp

theorem send_never_returns {σ : Type} (client : Reducer σ) (st : ReduceState σ) (value : String)
    (o : Option Error) : (ReduceTask.send client st value).2 ≠ .stop (.returned o) := by
  unfold ReduceTask.send
  split <;> simp

theorem openGroup_never_stops {σ : Type} (client : Reducer σ) (st : ReduceState σ) (key : String)
    (o : Outcome) : (ReduceTask.openGroup client st key).2 ≠ .stop o := by
  unfold ReduceTask.openGroup
  split <;> simp

theorem closeGroup_error_from_exec {σ : Type} (client : Reducer σ) (exec : ReduceExec)
    (st : ReduceState σ) (e : Error)
    (h : (ReduceTask.closeGroup client exec st).2 = .stop (.returned (some e))) :
    ∃ n p, exec n p = some e := by
  unfold ReduceTask.closeGroup at h
  cases hc : ReduceTask.closing client st with
  | none => simp [hc] at h
  | some f =>
    simp only [hc] at h
    have hd := drain_error_from_exec exec f.closes f.out
      { st with trace := st.trace ++ [.closeInput st.chan] } e
    generalize ReduceTask.drain exec f.closes f.out
      { st with trace := st.trace ++ [.closeInput st.chan] } = r at hd h
    obtain ⟨st2, c⟩ := r
    cases c with
    | go => simp at h
    | stop o => exact hd (by simpa using h)
    | overlap => simp at h

theorem step_error_from_exec {σ : Type} (client : Reducer σ) (exec : ReduceExec)
    (st : ReduceState σ) (key value : String) (e : Error)
    (h : (ReduceTask.step client exec st key value).2 = .stop (.returned (some e))) :
    ∃ n p, exec n p = some e := by
  unfold ReduceTask.step at h
  by_cases hk : (st.prev_key != key) = true
  · simp only [hk, if_true] at h
    by_cases hp : (st.prev_key != "") = true
    · simp only [hp, if_true] at h
      have hc := closeGroup_error_from_exec client exec st e
      generalize ReduceTask.closeGroup client exec st = r at hc h
      obtain ⟨st1, c⟩ := r
      cases c with
      | go =>
        simp only at h
        have ho := openGroup_never_stops client st1 key (.returned (some e))
        generalize ReduceTask.openGroup client st1 key = r2 at ho h
        obtain ⟨st2, c2⟩ := r2
        cases c2 with
        | go => exact absurd h (send_never_returns client st2 value _)
        | stop o => exact absurd h ho
        | overlap => simp at h
      | stop o => exact hc h
      | overlap => simp at h
    · simp only [hp, if_false, Bool.false_eq_true] at h
      have ho := openGroup_never_stops client st key (.returned (some e))
      generalize ReduceTask.openGroup client st key = r2 at ho h
      obtain ⟨st2, c2⟩ := r2
      cases c2 with
      | go => exact absurd h (send_never_returns client st2 value _)
      | stop o => exact absurd h ho
      | overlap => simp at h
  · simp only [hk, if_false, Bool.false_eq_true] at h
    exact absurd h (send_never_returns client st value _)

theorem loop_error_from_exec {σ : Type} (client : Reducer σ) (exec : ReduceExec)
    (rows : List (String × String)) (st : ReduceState σ) (e : Error)
    (h : (ReduceTask.loop client exec rows st).ctl = .stop (.returned (some e))) :
    ∃ n p, exec n p = some e := by
  induction rows generalizing st with
  | nil => exact absurd h (finish_never_returns_error client exec st e)
  | cons kv rows ih =>
    obtain ⟨key, value⟩ := kv
    rw [ReduceTask.loop] at h
    have hs := step_error_from_exec client exec st key value e
    generalize ReduceTask.step client exec st key value = r at hs h
    obtain ⟨st1, c⟩ := r
    cases c with
    | go => exact ih st1 h
    | stop o => exact hs h
    | overlap => simp at h

/-! ## Claims about the reduce task -/

/-- C9: in every run of `ReduceTask.Process`, whatever the client, the store and
the merged input, the trace of events is a run of the group state machine
`NoGroup -> GroupOpen(key) -> GroupClosing -> NoGroup`: a `Reduce` invocation is
started only in `NoGroup`, that is after the value stream of the previous group
has been closed and its output stream drained to its close, so at most one group
is open at any step and no second invocation is ever started on an occupied
channel pair.  The guarantee rests on the rows being ordered by key: the loop run
on the unordered rows `a`, empty key, `b` does start a second invocation on an
occupied channel pair. -/
theorem reduce_process_groups_exclusive {σ : Type} (client : Reducer σ) (exec : ReduceExec)
    (merged : List (String × String)) :
    (ReduceTask.Process client exec merged).ctl ≠ .overlap ∧
    (∃ g, GroupState.run .NoGroup (ReduceTask.Process client exec merged).state.trace = some g) ∧
    (ReduceTask.loop Client.Reduce (fun _ _ => none) [("a", "1"), ("", "2"), ("b", "3")]
        (ReduceState.init Int)).ctl = .overlap ∧
    GroupState.run .NoGroup
      (ReduceTask.loop Client.Reduce (fun _ _ => none) [("a", "1"), ("", "2"), ("b", "3")]
        (ReduceState.init Int)).state.trace = none := by
  have h := loop_exclusive_of_sorted client exec (orderByKey merged) (orderByKey_sorted merged)
  exact ⟨h.1, h.2, by decide, by decide⟩

/-- C10 (code evaluated at the failing input): for the empty merged input, and
whatever the client and the store, `ReduceTask.Process` starts no `Reduce`
invocation, closes the value stream and then blocks for ever in the final drain
of an output stream that has no producer; it does not return. -/
theorem reduce_process_empty_input_blocks {σ : Type} (client : Reducer σ) (exec : ReduceExec) :
    (ReduceTask.Process client exec []).ctl = .stop .blocked ∧
    (ReduceTask.Process client exec []).ctl ≠ .stop (.returned none) ∧
    (ReduceTask.Process client exec []).state.trace = [.closeInput 0] ∧
    (ReduceTask.Process client exec []).state.outputDB = [] := by
  refine ⟨rfl, ?_, rfl, rfl⟩
  show Ctl.stop Outcome.blocked ≠ Ctl.stop (Outcome.returned none)
  simp

/-- C2 (code evaluated at the failing input): on a key-sorted input whose first
record has the empty key, whatever the client, the store and the records that
follow, the loop of `ReduceTask.Process` blocks for ever on the first record
without having started any `Reduce` invocation; the same holds for the merged
store holding `("", "1")` and `("a", "1")`. -/
theorem reduce_process_empty_key_blocks {σ : Type} (client : Reducer σ) (exec : ReduceExec)
    (value : String) (rows : List (String × String)) :
    (ReduceTask.loop client exec (("", value) :: rows) (ReduceState.init σ)).ctl
      = .stop .blocked ∧
    (ReduceTask.loop client exec (("", value) :: rows) (ReduceState.init σ)).state.trace = [] ∧
    (ReduceTask.Process client exec [("a", "1"), ("", "1")]).ctl = .stop .blocked ∧
    (ReduceTask.Process client exec [("a", "1"), ("", "1")]).state.trace = [] := by
  have h : orderByKey [("a", "1"), ("", "1")] = [("", "1"), ("a", "1")] := by decide
  refine ⟨rfl, rfl, ?_, ?_⟩
  · rw [ReduceTask.Process, h]; rfl
  · rw [ReduceTask.Process, h]; rfl

/-- C4 (code evaluated at the failing input): `Client.Reduce` returns an error
for the group of key `a` whose only value is `x`, yet `ReduceTask.Process`
persists nothing for that group, goes on with the group of key `b` and returns
`nil`; when the group has a further value, `Process` blocks for ever instead.
Whatever the client and the merged input, when no insert fails `Process` never
returns a non-nil error. -/
theorem reduce_process_drops_reduce_error :
    (Reducer.run Client.Reduce "a" (Client.Reduce.start "a") ["x"]).err
      = some (.invalidNumber "x") ∧
    (ReduceTask.Process Client.Reduce (fun _ _ => none) [("a", "x"), ("b", "1")]).ctl
      = .stop (.returned none) ∧
    (ReduceTask.Process Client.Reduce (fun _ _ => none) [("a", "x"), ("b", "1")]).state.outputDB
      = [{ Key := "b", Value := "1" }] ∧
    (ReduceTask.Process Client.Reduce (fun _ _ => none) [("a", "x"), ("a", "1")]).ctl
      = .stop .blocked ∧
    (∀ (σ : Type) (client : Reducer σ) (merged : List (String × String)) (e : Error),
      (ReduceTask.Process client (fun _ _ => none) merged).ctl ≠ .stop (.returned (some e))) :=
  ⟨by decide, by decide, by decide, by decide,
   fun σ client merged e h => by
     obtain ⟨n, p, hnp⟩ := loop_error_from_exec client (fun _ _ => none) _ _ e h
     simp at hnp⟩

/-- C5 (code evaluated at the failing input): when the insert of the output
pair of the final group fails, `ReduceTask.Process` returns `nil` with nothing
persisted; the same failure on a group that is not the last is returned.
Whatever the client, the store and the state of the loop, the final drain never
makes `Process` return a non-nil error. -/
theorem reduce_process_drops_final_persist_error :
    (ReduceTask.Process Client.Reduce (fun _ _ => some (.store "disk full"))
        [("a", "1")]).ctl = .stop (.returned none) ∧
    (ReduceTask.Process Client.Reduce (fun _ _ => some (.store "disk full"))
        [("a", "1")]).state.outputDB = [] ∧
    (ReduceTask.Process Client.Reduce (fun _ _ => some (.store "disk full"))
        [("a", "1")]).state.trace
      = [.invoke "a" 0, .value 0 "1", .closeInput 0,
         .persist 0 { Key := "a", Value := "1" } (some (.store "disk full")), .drained 0] ∧
    (ReduceTask.Process Client.Reduce (fun _ _ => some (.store "disk full"))
        [("a", "1"), ("b", "1")]).ctl = .stop (.returned (some (.store "disk full"))) ∧
    (∀ (σ : Type) (client : Reducer σ) (exec : ReduceExec) (st : ReduceState σ) (e : Error),
      (ReduceTask.finish client exec st).ctl ≠ .stop (.returned (some e))) :=
  ⟨by decide, by decide, by decide, by decide,
   fun _ client exec st e => finish_never_returns_error client exec st e⟩

/-! ## Grouping on non-empty keys -/

theorem groupRunsFrom_same (key value : String) (vs : List String)
    (rows : List (String × String)) :
    groupRunsFrom key vs ((key, value) :: rows) = groupRunsFrom key (vs ++ [value]) rows := by
  unfold groupRunsFrom
  rw [groupRuns]
  cases groupRuns rows with
  | nil => simp
  | cons g gs =>
    obtain ⟨k, ws⟩ := g
    by_cases h : key = k
    · simp [h]
    · simp [h]

theorem groupRuns_head (key value : String) (rows : List (String × String)) :
    groupRuns ((key, value) :: rows) = groupRunsFrom key [value] rows := by
  unfold groupRunsFrom
  rw [groupRuns]
  cases groupRuns rows with
  | nil => rfl
  | cons g gs =>
    obtain ⟨k, ws⟩ := g
    by_cases h : key = k <;> simp [h]

theorem groupRunsFrom_other (key key1 value : String) (vs : List String)
    (rows : List (String × String)) (h : key ≠ key1) :
    groupRunsFrom key vs ((key1, value) :: rows) = (key, vs) :: groupRunsFrom key1 [value] rows := by
  rw [← groupRuns_head]
  have hh : ∃ ws gs, groupRuns ((key1, value) :: rows) = (key1, ws) :: gs := by
    rw [groupRuns]
    cases groupRuns rows with
    | nil => exact ⟨_, _, rfl⟩
    | cons g gs =>
      obtain ⟨k, ws⟩ := g
      by_cases h2 : key1 = k
      · exact ⟨value :: ws, gs, by simp [h2]⟩
      · exact ⟨[value], (k, ws) :: gs, by simp [h2]⟩
  obtain ⟨ws, gs, hg⟩ := hh
  unfold groupRunsFrom
  rw [hg]
  simp [h]

theorem drain_ok {σ : Type} (exec : ReduceExec) (hexec : ∀ n p, exec n p = none)
    (out : List Pair) (st : ReduceState σ) :
    (ReduceTask.drain exec true out st).2 = .go ∧
    (ReduceTask.drain exec true out st).1.trace.foldl Event.record []
      = st.trace.foldl Event.record [] ∧
    (ReduceTask.drain exec true out st).1.prev_key = st.prev_key := by
  induction out generalizing st with
  | nil => simp [ReduceTask.drain, Event.record]
  | cons i rest ih =>
    rw [ReduceTask.drain]
    simp only [hexec]
    have hih := ih { st with execs := st.execs + 1, outputDB := st.outputDB ++ [i],
                             trace := st.trace ++ [.persist st.chan i none] }
    obtain ⟨h1, h2, h3⟩ := hih
    refine ⟨h1, ?_, h3⟩
    rw [h2]
    simp [Event.record]

theorem drainLast_ok {σ : Type} (exec : ReduceExec) (hexec : ∀ n p, exec n p = none)
    (out : List Pair) (st : ReduceState σ) :
    (ReduceTask.drainLast exec true out st).2 = .go ∧
    (ReduceTask.drainLast exec true out st).1.trace.foldl Event.record []
      = st.trace.foldl Event.record [] := by
  induction out generalizing st with
  | nil => simp [ReduceTask.drainLast, Event.record]
  | cons i rest ih =>
    rw [ReduceTask.drainLast]
    simp only [hexec]
    have hih := ih { st with execs := st.execs + 1, outputDB := st.outputDB ++ [i],
                             trace := st.trace ++ [.persist st.chan i none] }
    obtain ⟨h1, h2⟩ := hih
    refine ⟨h1, ?_⟩
    rw [h2]
    simp [Event.record]

theorem loop_groups {σ : Type} (client : Reducer σ) (exec : ReduceExec)
    (hexec : ∀ n p, exec n p = none)
    (rows : List (String × String)) (hclient : client.followsProtocolOn rows)
    (hrows : ∀ kv ∈ rows, kv.1 ≠ "")
    (st : ReduceState σ) (s : σ) (vs : List String) (older : List (String × List String))
    (hkey : st.prev_key ≠ "") (hproc : st.proc = some (.receiving st.prev_key s))
    (htrace : st.trace.foldl Event.record [] = (st.prev_key, vs) :: older) :
    (ReduceTask.loop client exec rows st).ctl = .stop (.returned none) ∧
    invocationsOf (ReduceTask.loop client exec rows st).state.trace
      = older.reverse ++ groupRunsFrom st.prev_key vs rows := by
  induction rows generalizing st s vs older with
  | nil =>
    have hc : ReduceTask.closing client st = some (client.onClose st.prev_key s) := by
      simp [ReduceTask.closing, hproc]
    have hd := drainLast_ok exec hexec (client.onClose st.prev_key s).out
      { st with trace := st.trace ++ [.closeInput st.chan] }
    simp only [ReduceTask.loop, ReduceTask.finish, hc, hclient.2]
    generalize ReduceTask.drainLast exec true (client.onClose st.prev_key s).out
      { st with trace := st.trace ++ [.closeInput st.chan] } = r at hd
    obtain ⟨st2, c⟩ := r
    obtain ⟨d1, d2⟩ := hd
    simp only at d1 d2
    subst d1
    refine ⟨rfl, ?_⟩
    simp only [invocationsOf, d2, List.foldl_append, List.foldl_cons, List.foldl_nil, htrace,
      Event.record, groupRunsFrom, groupRuns, List.reverse_cons]
  | cons kv rows ih =>
    obtain ⟨key, value⟩ := kv
    have hk : key ≠ "" := hrows (key, value) (List.mem_cons_self _ _)
    have hrest : ∀ kv ∈ rows, kv.1 ≠ "" := fun kv hkv => hrows kv (List.mem_cons_of_mem _ hkv)
    have hclient2 : client.followsProtocolOn rows :=
      ⟨fun kv hkv => hclient.1 kv (List.mem_cons_of_mem _ hkv), hclient.2⟩
    have hval := hclient.1 (key, value) (List.mem_cons_self _ _)
    simp only at hval
    rw [ReduceTask.loop]
    by_cases hsame : st.prev_key = key
    · subst hsame
      obtain ⟨s1, hs1⟩ := hval s
      have hstep : ReduceTask.step client exec st st.prev_key value
          = ({ st with proc := some (.receiving st.prev_key s1),
                       trace := st.trace ++ [.value st.chan value] }, .go) := by
        simp [ReduceTask.step, ReduceTask.send, hproc, hs1]
      rw [hstep]
      simp only
      have := ih hclient2 hrest
        { st with proc := some (.receiving st.prev_key s1),
                  trace := st.trace ++ [.value st.chan value] }
        s1 (vs ++ [value]) older hkey rfl
        (by simp [List.foldl_append, htrace, Event.record])
      simp only at this
      rw [groupRunsFrom_same]
      exact this
    · have hne : (st.prev_key != key) = true := by simpa using hsame
      have hne2 : (st.prev_key != "") = true := by simpa using hkey
      have hc : ReduceTask.closing client st = some (client.onClose st.prev_key s) := by
        simp [ReduceTask.closing, hproc]
      have hd := drain_ok exec hexec (client.onClose st.prev_key s).out
        { st with trace := st.trace ++ [.closeInput st.chan] }
      obtain ⟨s1, hs1⟩ := hval (client.start key)
      simp only [ReduceTask.step, hne, hne2, if_true, ReduceTask.closeGroup, hc, hclient.2]
      generalize ReduceTask.drain exec true (client.onClose st.prev_key s).out
        { st with trace := st.trace ++ [.closeInput st.chan] } = r at hd
      obtain ⟨st2, c⟩ := r
      obtain ⟨d1, d2, d3⟩ := hd
      simp only at d1 d2 d3
      subst d1
      simp only [ReduceTask.openGroup, ReduceTask.send, hs1]
      have := ih hclient2 hrest
        { st2 with chan := st2.chan + 1, prev_key := key,
                   proc := some (.receiving key s1),
                   trace := st2.trace ++ [.invoke key (st2.chan + 1)]
                              ++ [.value (st2.chan + 1) value] }
        s1 [value] ((st.prev_key, vs) :: older) hk rfl
        (by simp [List.foldl_append, d2, htrace, Event.record])
      rw [groupRunsFrom_other _ _ _ _ _ hsame]
      simp only [List.reverse_cons, List.append_assoc, List.singleton_append] at this ⊢
      exact this

theorem utf8Bytes_append_inj (c d : Char) (r1 r2 : List Nat)
    (h : utf8Bytes c ++ r1 = utf8Bytes d ++ r2) : c = d ∧ r1 = r2 := by
  have hc : Char.ofNat c.toNat = c := Char.ofNat_toNat c
  have hd : Char.ofNat d.toNat = d := Char.ofNat_toNat d
  have key : c.toNat = d.toNat ∧ r1 = r2 := by
    unfold utf8Bytes at h
    simp only at h
    split_ifs at h <;>
      simp only [List.cons_append, List.nil_append, List.cons.injEq] at h <;>
      first
        | (exfalso; omega)
        | (refine ⟨?_, ?_⟩
           · omega
           · tauto)
  exact ⟨by rw [← hc, ← hd, key.1], key.2⟩

theorem bytes_injective (s t : String) (h : bytes s = bytes t) : s = t := by
  obtain ⟨l⟩ := s
  obtain ⟨m⟩ := t
  suffices hl : l = m by rw [hl]
  simp only [bytes, String.toList] at h
  induction l generalizing m with
  | nil =>
    cases m with
    | nil => rfl
    | cons d ds =>
      simp only [List.flatMap_nil, List.flatMap_cons] at h
      have := utf8Bytes_ne_nil d
      cases hd : utf8Bytes d with
      | nil => exact absurd hd this
      | cons b bs => rw [hd] at h; simp at h
  | cons c cs ih =>
    cases m with
    | nil =>
      simp only [List.flatMap_nil, List.flatMap_cons] at h
      have := utf8Bytes_ne_nil c
      cases hc : utf8Bytes c with
      | nil => exact absurd hc this
      | cons b bs => rw [hc] at h; simp at h
    | cons d ds =>
      simp only [List.flatMap_cons] at h
      obtain ⟨h1, h2⟩ := utf8Bytes_append_inj c d _ _ h
      rw [h1, ih ds h2]

theorem groupRuns_cons_head (key value : String) (rows : List (String × String)) :
    ∃ vs gs, groupRuns ((key, value) :: rows) = (key, vs) :: gs := by
  rw [groupRuns]
  cases groupRuns rows with
  | nil => exact ⟨_, _, rfl⟩
  | cons g gs =>
    obtain ⟨k, ws⟩ := g
    by_cases h : key = k
    · exact ⟨value :: ws, gs, by simp [h]⟩
    · exact ⟨[value], (k, ws) :: gs, by simp [h]⟩

theorem groupRuns_flatten (rows : List (String × String)) :
    (groupRuns rows).flatMap (fun g => g.2.map (fun v => (g.1, v))) = rows := by
  induction rows with
  | nil => rfl
  | cons kv rows ih =>
    obtain ⟨key, value⟩ := kv
    rw [groupRuns]
    cases hg : groupRuns rows with
    | nil =>
      rw [hg] at ih
      simp only [List.flatMap_nil] at ih
      simp [← ih]
    | cons g gs =>
      obtain ⟨k, ws⟩ := g
      rw [hg] at ih
      by_cases h : key = k
      · subst h
        simp only [if_true, List.flatMap_cons, List.map_cons, List.cons_append]
        rw [← ih]
        simp
      · simp only [h, if_false, List.flatMap_cons, List.map_cons, List.map_nil,
          List.cons_append, List.nil_append]
        rw [← ih]
        simp

theorem groupRuns_values_ne_nil (rows : List (String × String)) :
    ∀ g ∈ groupRuns rows, g.2 ≠ [] := by
  induction rows with
  | nil => simp [groupRuns]
  | cons kv rows ih =>
    obtain ⟨key, value⟩ := kv
    rw [groupRuns]
    cases hg : groupRuns rows with
    | nil => simp
    | cons g gs =>
      obtain ⟨k, ws⟩ := g
      rw [hg] at ih
      by_cases h : key = k
      · simp only [h, if_true, List.mem_cons]
        rintro g (rfl | hmem)
        · simp
        · exact ih g (List.mem_cons_of_mem _ hmem)
      · simp only [h, if_false, List.mem_cons]
        rintro g (rfl | rfl | hmem)
        · simp
        · exact ih _ (List.mem_cons_self _ _)
        · exact ih g (List.mem_cons_of_mem _ hmem)

theorem groupRuns_keys_chain (rows : List (String × String))
    (hs : rows.Sorted (fun a b => bytes a.1 ≤ bytes b.1)) :
    ((groupRuns rows).map (fun g => bytes g.1)).Chain' (· < ·) := by
  induction rows with
  | nil => simp [groupRuns]
  | cons kv rows ih =>
    obtain ⟨key, value⟩ := kv
    have ih2 := ih (List.Sorted.of_cons hs)
    rw [groupRuns]
    cases hg : groupRuns rows with
    | nil => simp
    | cons g gs =>
      obtain ⟨k, ws⟩ := g
      rw [hg] at ih2
      by_cases h : key = k
      · subst h
        simpa using ih2
      · simp only [h, if_false, List.map_cons]
        refine List.Chain'.cons ?_ (by simpa using ih2)
        cases rows with
        | nil => simp [groupRuns] at hg
        | cons kv2 rows2 =>
          obtain ⟨k2, v2⟩ := kv2
          obtain ⟨vs, gs2, hh⟩ := groupRuns_cons_head k2 v2 rows2
          rw [hh] at hg
          have hk : k2 = k := by
            have := congrArg (fun l => l.map Prod.fst) hg
            simpa using congrArg List.head? this
          subst hk
          have hle : bytes key ≤ bytes k2 :=
            List.rel_of_sorted_cons hs (k2, v2) (List.mem_cons_self _ _)
          exact lt_of_le_of_ne hle (fun hb => h (bytes_injective _ _ hb))

/-- Grouping on non-empty keys: on rows that are sorted by key and have no empty
key, with a `Reduce` function that follows the protocol on them and a store
that never fails, the loop of `ReduceTask.Process` returns `nil`, and the `Reduce`
invocations it starts are exactly the groups of the rows, each with the
complete run of values of its key in input order; the keys of the invocations
are strictly ascending, so every distinct key is invoked once, and every
invocation receives at least one value. -/
theorem reduce_loop_groups_nonempty_keys {σ : Type} (client : Reducer σ) (exec : ReduceExec)
    (key value : String) (rows : List (String × String))
    (hclient : client.followsProtocolOn ((key, value) :: rows))
    (hexec : ∀ n p, exec n p = none)
    (hkeys : ∀ kv ∈ (key, value) :: rows, kv.1 ≠ "")
    (hs : ((key, value) :: rows).Sorted (fun a b => bytes a.1 ≤ bytes b.1)) :
    (ReduceTask.loop client exec ((key, value) :: rows) (ReduceState.init σ)).ctl
      = .stop (.returned none) ∧
    invocationsOf
        (ReduceTask.loop client exec ((key, value) :: rows) (ReduceState.init σ)).state.trace
      = groupRuns ((key, value) :: rows) ∧
    (groupRuns ((key, value) :: rows)).flatMap (fun g => g.2.map (fun v => (g.1, v)))
      = (key, value) :: rows ∧
    ((groupRuns ((key, value) :: rows)).map (fun g => bytes g.1)).Sorted (· < ·) ∧
    (∀ g ∈ groupRuns ((key, value) :: rows), g.2 ≠ []) := by
  have hk : key ≠ "" := hkeys (key, value) (List.mem_cons_self _ _)
  have hrest : ∀ kv ∈ rows, kv.1 ≠ "" := fun kv hkv => hkeys kv (List.mem_cons_of_mem _ hkv)
  have hne : (("" : String) != key) = true := by
    simpa using fun h : "" = key => hk h.symm
  obtain ⟨s1, hs1⟩ := hclient.1 (key, value) (List.mem_cons_self _ _) (client.start key)
  simp only at hs1
  have hclient2 : client.followsProtocolOn rows :=
    ⟨fun kv hkv => hclient.1 kv (List.mem_cons_of_mem _ hkv), hclient.2⟩
  have hstep : ReduceTask.step client exec (ReduceState.init σ) key value
      = ({ prev_key := key, chan := 0, proc := some (.receiving key s1), outputDB := [],
           execs := 0, trace := [.invoke key 0, .value 0 value] }, .go) := by
    simp [ReduceTask.step, ReduceState.init, hne, ReduceTask.openGroup, ReduceTask.send, hs1]
  have hl := loop_groups client exec hexec rows hclient2 hrest
    { prev_key := key, chan := 0, proc := some (.receiving key s1), outputDB := [],
      execs := 0, trace := [.invoke key 0, .value 0 value] }
    s1 [value] [] hk rfl rfl
  rw [ReduceTask.loop, hstep]
  simp only
  refine ⟨hl.1, ?_, groupRuns_flatten _, ?_, groupRuns_values_ne_nil _⟩
  · rw [hl.2, groupRuns_head]
    rfl
  · exact List.chain'_iff_pairwise.mp (groupRuns_keys_chain _ hs)

/-- The word-count client on three sorted rows with two keys satisfies the
hypotheses of the grouping theorem: two invocations, `a` with `1`, `2` and `b`
with `3`. -/
theorem reduce_loop_groups_nonempty_keys_example :
    Client.Reduce.followsProtocolOn [("a", "1"), ("a", "2"), ("b", "3")] ∧
    invocationsOf
        (ReduceTask.loop Client.Reduce (fun _ _ => none) [("a", "1"), ("a", "2"), ("b", "3")]
          (ReduceState.init Int)).state.trace
      = [("a", ["1", "2"]), ("b", ["3"])] := by
  have hp : Client.Reduce.followsProtocolOn [("a", "1"), ("a", "2"), ("b", "3")] := by
    refine ⟨?_, fun _ _ => rfl⟩
    intro kv hkv s
    simp only [List.mem_cons, List.mem_singleton, List.not_mem_nil, or_false] at hkv
    have h1 : strconv.Atoi "1" = .ok 1 := rfl
    have h2 : strconv.Atoi "2" = .ok 2 := rfl
    have h3 : strconv.Atoi "3" = .ok 3 := rfl
    rcases hkv with rfl | rfl | rfl
    · exact ⟨wrapInt (s + 1), by simp only [Client.Reduce, h1]⟩
    · exact ⟨wrapInt (s + 2), by simp only [Client.Reduce, h2]⟩
    · exact ⟨wrapInt (s + 3), by simp only [Client.Reduce, h3]⟩
  refine ⟨hp, ?_⟩
  have h := (reduce_loop_groups_nonempty_keys Client.Reduce (fun _ _ => none) "a" "1"
    [("a", "2"), ("b", "3")] hp (fun _ _ => rfl) (by decide) (by decide)).2.1
  rw [h]
  decide

end MapReduce
